import Mathlib

/-!
Verification development for the webfactory static-site assembler.

The definitions below are a shallow embedding of the Go sources:
  - the template tokenizer (package template, Tokenizer.Tokenize),
  - the template interpreter (Processor.processTemplate / Process / Assembler),
  - the blueprint parser (package blueprint: New, parseLine, buildTree),
  - the asset manager (package assets: ProcessComponent, GetAssetTags, GetFiles),
  - the component registry (package component: Registry.Load, Registry.Get).

Modelling conventions, stated once:
  - Go byte slices and strings are modelled as Lean String / List Char; the
    repository only ever handles template text bytewise, and the claims use
    ASCII inputs, so Unicode whitespace differences of strings.TrimSpace do
    not arise.
  - Go panics (out-of-bounds slice indexing) are modelled as Option.none;
    Go error values are modelled as Except or as explicit error lists,
    mirroring where the source stores them.
  - Go maps are modelled as association lists that preserve first-insertion
    order; lookups see exactly the same key-value pairs.
  - The literal brace characters of the template delimiters are written with
    hexadecimal escapes throughout.
-/

namespace Webfactory

/-- The opening brace character of a template directive delimiter. -/
def lbrace : Char := '\x7b'

/-- The closing brace character of a template directive delimiter. -/
def rbrace : Char := '\x7d'

/-- Go strings.TrimSpace on a character list (ASCII whitespace). -/
def trimChars (s : List Char) : List Char :=
  ((s.dropWhile Char.isWhitespace).reverse.dropWhile Char.isWhitespace).reverse

/-- Go strings.TrimSpace, modelling the calls made on directive bodies and
blueprint lines. -/
def trimString (s : String) : String :=
  String.mk (trimChars s.data)

/-- First-match lookup in an association list; models a Go map read. -/
def lookupAssoc {α : Type} (l : List (String × α)) (k : String) : Option α :=
  match l with
  | [] => none
  | (k2, v) :: rest => if k2 = k then some v else lookupAssoc rest k

/--
Token is the unit produced by tokenizing a component template
(Go: template.Token with template.TokenType).
-/
inductive Token where
  | text (content : String)
  | rangeStart (name : String)
  | rangeEnd
  | var (name : String)
  | component
  | style
  | script
deriving DecidableEq, Repr

/-- Index of the first occurrence of the two-character pattern `a b` in a
character list; models the byte scan of Tokenizer.Tokenize and bytes.Index
for a two-byte pattern. -/
def findPair (a b : Char) : List Char → Option Nat
  | [] => none
  | [_] => none
  | x :: y :: rest =>
    if x = a ∧ y = b then some 0 else (findPair a b (y :: rest)).map (· + 1)

theorem findPair_le (a b : Char) :
    ∀ (l : List Char) (i : Nat), findPair a b l = some i → i + 2 ≤ l.length := by
  intro l
  induction l with
  | nil => intro i h; simp [findPair] at h
  | cons x rest ih =>
    intro i h
    match rest, h with
    | [], h => simp [findPair] at h
    | y :: rest2, h =>
      rw [findPair] at h
      by_cases hc : x = a ∧ y = b
      · simp [hc] at h
        simp [← h, List.length]
      · simp [hc] at h
        obtain ⟨j, hj, hij⟩ := h
        have := ih j hj
        simp [List.length] at this ⊢
        omega

/-- Go strings.HasPrefix on character lists. -/
def isPrefixChars : List Char → List Char → Bool
  | [], _ => true
  | _ :: _, [] => false
  | a :: as, b :: bs => a = b && isPrefixChars as bs

/-- Directive-body dispatch of Tokenizer.Tokenize: the switch over the
trimmed directive text. Unrecognized directives produce no token. -/
def dirTokens (d : List Char) : List Token :=
  if d = "component".data then [Token.component]
  else if d = "range end".data then [Token.rangeEnd]
  else if isPrefixChars "range .".data d then [Token.rangeStart (String.mk (d.drop 7))]
  else if d = "styles".data then [Token.style]
  else if d = "script".data then [Token.script]
  else if isPrefixChars ".".data d then [Token.var (String.mk (d.drop 1))]
  else []

/--
Tokenizer.Tokenize. Scans for the delimiter pair, flushes accumulated text
(only when nonempty, matching the pos > 0 guard), extracts the directive
between the delimiters, and continues after the closing pair. An
unterminated directive makes the whole remaining template (including the
opening delimiter) a literal text token appended twice: once by the
missing-close branch, and once more by the flush after the loop, which
still sees the remainder pending after the break.
-/
def tokenizeAux (s : List Char) : List Token :=
  match h : findPair lbrace lbrace s with
  | none => if s.isEmpty then [] else [Token.text (String.mk s)]
  | some i =>
    let pre := s.take i
    let rest := s.drop i
    let preTok : List Token := if pre.isEmpty then [] else [Token.text (String.mk pre)]
    match findPair rbrace rbrace (rest.drop 2) with
    | none => preTok ++ [Token.text (String.mk rest), Token.text (String.mk rest)]
    | some j =>
      preTok ++ dirTokens (trimChars ((rest.drop 2).take j))
        ++ tokenizeAux (rest.drop (j + 4))
termination_by s.length
decreasing_by
  have hle := findPair_le lbrace lbrace s i h
  simp [List.length_drop]
  omega

/-- Tokenizer entry point (Go: NewTokenizer followed by Tokenize). -/
def tokenize (template : String) : List Token :=
  tokenizeAux template.data

/-! ## Blueprint parser (package blueprint) -/

/-- blueprint.Block. The id field is the running block counter; the
synthetic root carries id -1. -/
structure Block where
  path : String
  index : List Int
  id : Int
  vars : List (String × List String)
deriving DecidableEq, Repr

/-- blueprint.Node: one component placement and its ordered children. -/
inductive Node where
  | node (block : Block) (children : List Node)
deriving Repr

/-- The Block of a Node. -/
def Node.block : Node → Block
  | .node b _ => b

/-- The children of a Node. -/
def Node.children : Node → List Node
  | .node _ cs => cs

/-- Decimal digit-string value; none when empty or any non-digit occurs. -/
def digitsVal (cs : List Char) : Option Nat :=
  if cs = [] then none
  else cs.foldl (fun acc c =>
    match acc with
    | none => none
    | some n => if c.isDigit then some (n * 10 + (c.toNat - 48)) else none) (some 0)

/-- strconv.Atoi: optional sign followed by at least one digit. Overflow of
the 64-bit range is not modelled; the blueprint indices in the claims are
small. -/
def atoiChars (cs : List Char) : Option Int :=
  match cs with
  | '+' :: rest => (digitsVal rest).map (fun n => (n : Int))
  | '-' :: rest => (digitsVal rest).map (fun n => -(n : Int))
  | _ => (digitsVal cs).map (fun n => (n : Int))

/-- Splits a character list at each character satisfying p, keeping empty
groups; models strings.Split with a one-character separator (p tests that
character) and underlies the strings.Fields model. -/
def splitByPred (p : Char → Bool) : List Char → List (List Char)
  | [] => [[]]
  | c :: rest =>
    match splitByPred p rest with
    | [] => if p c then [[], []] else [[c]]
    | group :: groups => if p c then [] :: group :: groups else (c :: group) :: groups

/-- strings.Fields: whitespace-separated fields, empty fields removed. -/
def fieldsChars (cs : List Char) : List (List Char) :=
  (splitByPred Char.isWhitespace cs).filter (fun f => f ≠ [])

/-- strings.Split(content, newline). -/
def splitLines (cs : List Char) : List (List Char) :=
  splitByPred (fun c => c = '\n') cs

/-- strings.TrimRight(s, dot): removes trailing dot characters. -/
def trimTrailingDots (cs : List Char) : List Char :=
  (cs.reverse.dropWhile (fun c => c = '.')).reverse

/-- The index-segment loop of blueprint.parseLine: every dot-separated
segment must parse as an integer, failing on the first bad segment. -/
def parseIndex : List (List Char) → Option (List Int)
  | [] => some []
  | s :: rest =>
    match atoiChars s with
    | none => none
    | some n => (parseIndex rest).map (fun ns => n :: ns)

/--
blueprint.parseLine: a trimmed line that is nonempty, not a comment, not a
variable line, and has exactly two whitespace-separated fields of which the
first parses as a dot-separated integer index, yields a Block; anything
else is skipped (none).
-/
def parseLine (line : List Char) (id : Int) : Option Block :=
  let tl := trimChars line
  if tl = [] then none
  else if isPrefixChars "#".data tl then none
  else if isPrefixChars ".".data tl then none
  else
    match fieldsChars tl with
    | [p0, p1] =>
      match parseIndex (splitByPred (fun c => c = '.') (trimTrailingDots p0)) with
      | none => none
      | some index => some ⟨String.mk (trimChars p1), index, id, []⟩
    | _ => none

/-- Appends one value to the named variable of a block, creating the
binding on first use (blueprint.New, variable-line branch). A binding is
only ever created together with its first appended value. -/
def addVar (vars : List (String × List String)) (k v : String) :
    List (String × List String) :=
  if (lookupAssoc vars k).isSome then
    vars.map (fun p => if p.1 = k then (p.1, p.2 ++ [v]) else p)
  else vars ++ [(k, [v])]

/-- Rewrites the last element of a list; models mutation through the
currentBlock pointer, which always points at the most recently parsed
block. -/
def updateLast (blocks : List Block) (f : Block → Block) : List Block :=
  match blocks with
  | [] => []
  | [b] => [f b]
  | b :: b2 :: rest => b :: updateLast (b2 :: rest) f

/-- strings.IndexByte for the equals sign: splits a line at its first
equals character; none when absent. -/
def splitAtEq : List Char → Option (List Char × List Char)
  | [] => none
  | c :: rest =>
    if c = '=' then some ([], rest)
    else (splitAtEq rest).map (fun pr => (c :: pr.1, pr.2))

/--
The line loop of blueprint.New. Variable lines attach to the current
(= last parsed) block and are skipped while no block exists; block lines
append a Block and advance the id counter; anything else is skipped.
-/
def parseBlocksAux : List (List Char) → List Block → Int → List Block
  | [], blocks, _ => blocks
  | line :: rest, blocks, id =>
    let tl := trimChars line
    if isPrefixChars ".".data tl then
      if blocks = [] then parseBlocksAux rest blocks id
      else
        match splitAtEq tl with
        | none => parseBlocksAux rest blocks id
        | some pr =>
          let varName := trimChars pr.1
          let value := String.mk (pr.2.dropWhile Char.isWhitespace)
          if isPrefixChars ".".data varName then
            parseBlocksAux rest
              (updateLast blocks
                (fun b => { b with vars := addVar b.vars (String.mk (varName.drop 1)) value }))
              id
          else parseBlocksAux rest blocks id
    else
      match parseLine tl id with
      | some b => parseBlocksAux rest (blocks ++ [b]) (id + 1)
      | none => parseBlocksAux rest blocks id

/-- The block list produced by the line loop of blueprint.New. -/
def parseBlocks (content : String) : List Block :=
  parseBlocksAux (splitLines content.data) [] 0

/--
The attach pass of blueprint.buildTree, made functional. Go keys its
nodeMap by the dotted decimal rendering of the index (indexKey); the
rendering is injective — segments render without dots — so the model keys
by the index itself, with the empty index as the pre-seen root key, exactly
as the nodeMap is pre-populated with the root under the empty string.
Walking the blocks in order, each block is assigned the key of the node it
is appended to: its parent key (the index minus its last segment) when that
key was seen earlier, else the root key. A key already seen aborts the
whole build (the duplicate-index check). Go checks the parent key against a
map that already holds the current key; the two checks agree because the
parent key, being strictly shorter, never equals the current key.
-/
def computeParents : List Block → List (List Int) → Option (List (List Int × Block))
  | [], _ => some []
  | b :: bs, seen =>
    if b.index ∈ seen then none
    else
      let pk :=
        if b.index ≠ [] then
          if b.index.dropLast ∈ seen then b.index.dropLast else []
        else []
      (computeParents bs (b.index :: seen)).map (fun ps => (pk, b) :: ps)

/--
Materializes the pointer graph of buildTree as a functional tree. The pairs
carry (parent key, block) in source order. Because a parent key is only
assigned when the parent block occurs strictly earlier, a right fold builds
every node after all of its children: each step collects the already-built
nodes whose parent key is the current key, in source order — exactly the
append order of the Go children slices. Entries left at the end are the
root children, in source order.
-/
def assembleForest (pairs : List (List Int × Block)) : List (List Int × Node) :=
  pairs.foldr (fun pb acc =>
    (pb.1, Node.node pb.2 ((acc.filter (fun e => e.1 = pb.2.index)).map (fun e => e.2)))
      :: acc.filter (fun e => ¬ (e.1 = pb.2.index))) []

/-- The synthetic root block (Go: Block with ID -1, zero values elsewhere). -/
def rootBlock : Block := ⟨"", [], -1, []⟩

/-- The last index segment of a node, the non-root sort key of
buildTree.sortNodes. The parser never produces an empty index, so the
default is unreachable on parsed trees. -/
def lastKey (n : Node) : Int := n.block.index.getLastD 0

/-- The first index segment of a node, the root-level sort key of
buildTree.sortNodes. -/
def firstKey (n : Node) : Int := n.block.index.headD 0

mutual
/--
buildTree.sortNodes on a non-root node: children sorted by their last
index segment, then sorted recursively. The Go sort.Slice is an unstable
sort, but for the sibling lists arising here it agrees with a stable
insertion sort: non-root siblings always have pairwise distinct keys (equal
keys would mean equal index paths, rejected as duplicates), and at the slice
sizes of the concrete claims Go uses plain insertion sort, which is stable.
-/
def sortTree (n : Node) : Node :=
  match n with
  | .node b cs =>
    Node.node b (sortForest (List.insertionSort (fun a c => lastKey a ≤ lastKey c) cs))
termination_by sizeOf n
decreasing_by
  rename_i b cs
  have hp := (List.perm_insertionSort (fun a c => lastKey a ≤ lastKey c) cs).sizeOf_eq_sizeOf
  simp [hp]
/-- Recursive sorting of every node of a forest (the recursion of
sortNodes over children). -/
def sortForest (l : List Node) : List Node :=
  match l with
  | [] => []
  | c :: cs => sortTree c :: sortForest cs
termination_by sizeOf l
decreasing_by
  all_goals simp
  all_goals omega
end

/-- buildTree.sortNodes at the root: the root children are sorted by their
first index segment, every deeper level by its last segment. -/
def sortRootTree (n : Node) : Node :=
  match n with
  | .node b cs =>
    Node.node b (sortForest (List.insertionSort (fun a c => firstKey a ≤ firstKey c) cs))

/--
blueprint.buildTree: none for an empty block list, none on a duplicate
index key, otherwise the sorted tree under the synthetic root.
-/
def buildTree (blocks : List Block) : Option Node :=
  if blocks = [] then none
  else
    match computeParents blocks [[]] with
    | none => none
    | some pairs =>
      some (sortRootTree (Node.node rootBlock ((assembleForest pairs).map (fun e => e.2))))

/-- blueprint.New: parses the lines and builds the tree. The error result
is the literal nil of the Go source — New never returns a non-nil error. -/
def blueprintNew (content : String) : Option Node × Option String :=
  (buildTree (parseBlocks content), none)

/-! ## Components and the asset manager (packages component and assets) -/

/-- component.Component: template text, merged styles, and the per-file
script contents. The Children map of the Go struct is created empty and
never populated; it is omitted. -/
structure Component where
  path : String
  template : String
  styles : String
  scripts : List (String × String)
deriving DecidableEq, Repr

/-- assets.jsAsset: one stored script content and every derived output
name that referenced it. -/
structure JsAsset where
  content : String
  files : List String
deriving DecidableEq, Repr

/-- assets.Manager: content pools keyed by content hash with ordered key
lists. Go iterates the scripts and result maps in unspecified order; the
model keeps first-insertion order, and the claims proved are insensitive
to that order. -/
structure AssetsState where
  css : List (String × String)
  cssKeys : List String
  js : List (String × JsAsset)
  jsKeys : List String
deriving DecidableEq, Repr

/-- assets.New. -/
def assetsNew : AssetsState := ⟨[], [], [], []⟩

/-- assets.generateHash computes the hex SHA-256 of the content, used only
as a deduplication key. The model keys by the content itself: the
deduplication semantics depend only on the hash being injective, and
collisions are assumed absent. -/
def generateHash (content : String) : String := content

/-- Character class of assets.sanitizeFileName: ASCII letters and digits. -/
def isAlnum (c : Char) : Bool :=
  ('a' ≤ c ∧ c ≤ 'z') ∨ ('A' ≤ c ∧ c ≤ 'Z') ∨ ('0' ≤ c ∧ c ≤ '9')

/-- The fixpoint loop of assets.sanitizeFileName replacing double dashes:
every maximal dash run collapses to a single dash. -/
def collapseDashes : List Char → List Char
  | [] => []
  | c :: rest =>
    if c = '-' ∧ rest.head? = some '-' then collapseDashes rest
    else c :: collapseDashes rest

/-- strings.Trim(name, dash): dashes removed from both ends. -/
def trimDashes (cs : List Char) : List Char :=
  ((cs.dropWhile (fun c => c = '-')).reverse.dropWhile (fun c => c = '-')).reverse

/-- assets.sanitizeFileName: non-alphanumerics become dashes, consecutive
dashes collapse, leading and trailing dashes are trimmed. -/
def sanitizeFileName (path : String) : String :=
  String.mk (trimDashes (collapseDashes
    (path.data.map (fun c => if isAlnum c then c else '-'))))

/-- strings.TrimSuffix on character lists. -/
def trimSuffixChars (cs sfx : List Char) : List Char :=
  if isPrefixChars sfx.reverse cs.reverse then cs.take (cs.length - sfx.length) else cs

/-- strings.TrimSuffix / bytes.TrimSuffix. -/
def trimSuffixStr (s sfx : String) : String :=
  String.mk (trimSuffixChars s.data sfx.data)

/-- Go map assignment for an existing key. -/
def updateAssoc {α : Type} (l : List (String × α)) (k : String) (v : α) :
    List (String × α) :=
  l.map (fun p => if p.1 = k then (k, v) else p)

/-- Go map assignment: replace when present, append otherwise. -/
def insertAssoc {α : Type} (l : List (String × α)) (k : String) (v : α) :
    List (String × α) :=
  if (lookupAssoc l k).isSome then updateAssoc l k v else l ++ [(k, v)]

/--
assets.Manager.ProcessComponent: nonempty styles are pooled once per
content hash; each script is pooled by content hash, accumulating the
derived output name sanitize(componentPath)-basename. The Go error result
is always nil. Go iterates comp.Scripts (a map) in unspecified order; the
model uses list order — the claims involve at most one script per
component.
-/
def processComponentAssets (comp : Component) (m : AssetsState) : AssetsState :=
  let m1 :=
    if comp.styles ≠ "" then
      let hash := generateHash comp.styles
      if (lookupAssoc m.css hash).isSome then m
      else { m with css := m.css ++ [(hash, comp.styles)], cssKeys := m.cssKeys ++ [hash] }
    else m
  comp.scripts.foldl (fun m2 sc =>
    let hash := generateHash sc.2
    let baseName := trimSuffixStr sc.1 ".js"
    let outName := sanitizeFileName comp.path ++ "-" ++ baseName
    match lookupAssoc m2.js hash with
    | some asset =>
      { m2 with js := updateAssoc m2.js hash ⟨asset.content, asset.files ++ [outName]⟩ }
    | none =>
      { m2 with js := m2.js ++ [(hash, ⟨sc.2, [outName]⟩)], jsKeys := m2.jsKeys ++ [hash] })
    m1

/-- filepath.Join of a possibly empty leading element with two components,
as called by GetAssetTags. -/
def joinPath2 (pfx a b : String) : String :=
  if pfx = "" then a ++ "/" ++ b else pfx ++ "/" ++ a ++ "/" ++ b

/--
assets.Manager.GetAssetTags: one stylesheet link when any CSS exists, and
one script tag per derived output name, newline-separated with the final
whitespace trimmed. Go walks the js map in unspecified order; the model
walks first-insertion order of the hashes.
-/
def getAssetTags (m : AssetsState) (pfx : String) : String × String :=
  let styles :=
    if m.css ≠ [] then
      "<link rel=\"stylesheet\" href=\"" ++ joinPath2 pfx "css" "styles.css" ++ "\">"
    else ""
  let scriptsRaw := m.jsKeys.foldl (fun acc hash =>
    match lookupAssoc m.js hash with
    | none => acc
    | some asset =>
      asset.files.foldl (fun acc2 filename =>
        acc2 ++ "<script src=\"" ++ joinPath2 pfx "js" (sanitizeFileName filename ++ ".js")
          ++ "\"></script>\n") acc) ""
  (styles, trimString scriptsRaw)

/--
assets.Manager.GetFiles: the merged stylesheet (pool entries in
first-appearance order, newline-separated, one trailing newline trimmed)
under the styles.css key, plus one file entry per derived script name,
every name of a hash mapping to that hash's single stored content.
-/
def getFiles (m : AssetsState) : List (String × String) :=
  let files : List (String × String) := []
  let files1 :=
    if m.css ≠ [] then
      let merged := m.cssKeys.foldl (fun acc hash =>
        match lookupAssoc m.css hash with
        | none => acc
        | some content => acc ++ content ++ "\n") ""
      insertAssoc files "styles.css" (trimSuffixStr merged "\n")
    else files
  m.jsKeys.foldl (fun fs hash =>
    match lookupAssoc m.js hash with
    | none => fs
    | some asset =>
      asset.files.foldl (fun fs2 filename =>
        insertAssoc fs2 (sanitizeFileName filename ++ ".js") asset.content) fs) files1

/-! ## Template processor (package template: Processor) -/

/-- template.processError. -/
structure ProcErr where
  line : Int
  directive : String
  msg : String
deriving DecidableEq, Repr

/-- The mutable fields of template.Processor threaded through processing. -/
structure PState where
  hasStyles : Bool
  hasScripts : Bool
  errLines : List ProcErr
  assets : AssetsState
deriving DecidableEq, Repr

/-- The Processor state created by template.New. -/
def initPState : PState := ⟨false, false, [], assetsNew⟩

/-- Processor.addError: duplicate (line, directive) pairs are dropped. -/
def addError (st : PState) (line : Int) (directive msg : String) : PState :=
  if st.errLines.any (fun e => e.line = line ∧ e.directive = directive) then st
  else { st with errLines := st.errLines ++ [⟨line, directive, msg⟩] }

/--
The switch body of the inner loop of Processor.processTemplate at a
RangeEndToken, as the fragment one replayed token appends to the buffer: a
Text token its literal, a Var token matching the loop variable the
iteration value, any other Var token with a nonempty binding its first
value, everything else (and a Var token absent or empty-bound) nothing.
-/
def replayTok (vars : List (String × List String)) (rangeVar rangeValue : String) :
    Token → String
  | Token.text s => s
  | Token.var m =>
    if m = rangeVar then rangeValue
    else
      match lookupAssoc vars m with
      | some (v :: _) => v
      | _ => ""
  | _ => ""

/--
The inner loop of Processor.processTemplate at a RangeEndToken: replays the
tokens between the range markers for one iteration value, appending one
fragment per token to the buffer.
-/
def replay (vars : List (String × List String)) (rangeVar : String)
    (body : List Token) (rangeValue : String) : String :=
  body.foldl (fun acc t => acc ++ replayTok vars rangeVar rangeValue t) ""

/-- The rangeContent update at a RangeStartToken: overwritten only when
the range variable has a binding, otherwise retained (Go only assigns
inside the comma-ok branch). -/
def rcUpdate (vars : List (String × List String)) (n : String) (rc : List String) :
    List String :=
  match lookupAssoc vars n with
  | some vs => vs
  | none => rc

/--
The token loop of Processor.processTemplate, one step per token, carrying
the loop state of the Go locals: inRange, the tokens accumulated since the
open range marker (Go keeps rangeStart and re-slices; the model accumulates
the same slice), the current range variable, and rangeContent — which is
only overwritten when the range variable has a binding, and is otherwise
retained from the previous range block. The child-insertion renderer is a
parameter; Process passes the recursive children renderer. Out-of-bounds
indexing of Go (a Var token bound to an empty value sequence, outside a
range) is none.
-/
def interpTokens (vars : List (String × List String))
    (renderChildren : PState → Option (String × PState)) :
    List Token → Bool → List Token → String → List String → PState →
    Option (String × PState)
  | [], _, _, _, _, st => some ("", st)
  | Token.text s :: rest, inRange, acc, rv, rc, st =>
    if inRange then
      interpTokens vars renderChildren rest true (acc ++ [Token.text s]) rv rc st
    else
      (interpTokens vars renderChildren rest false acc rv rc st).map
        (fun r => (s ++ r.1, r.2))
  | Token.style :: rest, inRange, acc, rv, rc, st =>
    if inRange then
      interpTokens vars renderChildren rest true (acc ++ [Token.style]) rv rc
        { st with hasStyles := true }
    else
      interpTokens vars renderChildren rest false acc rv rc { st with hasStyles := true }
  | Token.script :: rest, inRange, acc, rv, rc, st =>
    if inRange then
      interpTokens vars renderChildren rest true (acc ++ [Token.script]) rv rc
        { st with hasScripts := true }
    else
      interpTokens vars renderChildren rest false acc rv rc { st with hasScripts := true }
  | Token.component :: rest, inRange, acc, rv, rc, st =>
    if inRange then
      interpTokens vars renderChildren rest true (acc ++ [Token.component]) rv rc st
    else
      match renderChildren st with
      | none => none
      | some (o, st1) =>
        (interpTokens vars renderChildren rest false acc rv rc st1).map
          (fun r => (o ++ r.1, r.2))
  | Token.rangeStart n :: rest, inRange, acc, rv, rc, st =>
    if inRange then
      interpTokens vars renderChildren rest true (acc ++ [Token.rangeStart n]) rv rc st
    else
      interpTokens vars renderChildren rest true [] n (rcUpdate vars n rc) st
  | Token.rangeEnd :: rest, inRange, acc, rv, rc, st =>
    if inRange then
      let loopOut := rc.foldl (fun o v => o ++ replay vars rv acc v) ""
      (interpTokens vars renderChildren rest false [] rv rc st).map
        (fun r => (loopOut ++ r.1, r.2))
    else interpTokens vars renderChildren rest false acc rv rc st
  | Token.var n :: rest, inRange, acc, rv, rc, st =>
    if inRange then
      interpTokens vars renderChildren rest true (acc ++ [Token.var n]) rv rc st
    else
      match lookupAssoc vars n with
      | none => interpTokens vars renderChildren rest false acc rv rc st
      | some [] => none
      | some (v :: _) =>
        (interpTokens vars renderChildren rest false acc rv rc st).map
          (fun r => (v ++ r.1, r.2))

mutual
/--
Processor.Process: the synthetic root (id -1) renders as the concatenation
of its children; a non-root node either resolves its component (its assets
pooled, its template tokenized and interpreted against the node vars and
children) or, when the registry has no entry, collects a non-fatal error
and yields the literal placeholder delimiters around the unresolved path.
The addError call of Go processAssets is dead code — ProcessComponent of
the asset manager returns a constant nil error — so pooling the assets is
modelled as the pure state update it is.
-/
def processNode (reg : List (String × Component)) (n : Node) (st : PState) :
    Option (String × PState) :=
  if n.block.id = -1 then
    processChildren reg n.children st
  else
    match lookupAssoc reg n.block.path with
    | none =>
      some (String.mk ([lbrace, lbrace] ++ n.block.path.data ++ [rbrace, rbrace]),
        addError st 0 n.block.path ("component not found: " ++ n.block.path))
    | some comp =>
      interpTokens n.block.vars (fun s => processChildren reg n.children s)
        (tokenize comp.template) false [] "" []
        { st with assets := processComponentAssets comp st.assets }
termination_by 2 * sizeOf n + 1
decreasing_by
  all_goals cases n
  all_goals simp [Node.children]
  all_goals omega
/-- Processor.processChildren: children rendered left to right, outputs
concatenated, the processor state threaded through; the per-child Go error
results are discarded exactly as in the source. -/
def processChildren (reg : List (String × Component)) (cs : List Node) (st : PState) :
    Option (String × PState) :=
  match cs with
  | [] => some ("", st)
  | c :: rest =>
    match processNode reg c st with
    | none => none
    | some (o, st1) =>
      (processChildren reg rest st1).map (fun r => (o ++ r.1, r.2))
termination_by 2 * sizeOf cs
decreasing_by
  all_goals simp
  all_goals omega
end

/-- Processor.Process on a possibly nil tree: Go returns nil output and nil
error for a nil node. -/
def processNodeOpt (reg : List (String × Component)) (t : Option Node) (st : PState) :
    Option (String × PState) :=
  match t with
  | none => some ("", st)
  | some n => processNode reg n st

/-- bytes.ReplaceAll: leftmost non-overlapping occurrences of a nonempty
pattern are replaced. The source only ever replaces literal delimiter
text, never an empty pattern. -/
def replaceAllChars (pat rep : List Char) : List Char → List Char
  | [] => []
  | c :: rest =>
    if pat ≠ [] ∧ isPrefixChars pat (c :: rest) then
      rep ++ replaceAllChars pat rep ((c :: rest).drop pat.length)
    else c :: replaceAllChars pat rep rest
termination_by s => s.length
decreasing_by
  · rename_i hcond
    have hlen : 0 < pat.length := List.length_pos.mpr hcond.1
    simp [List.length_drop]
    omega
  · simp

/-- bytes.ReplaceAll on strings. -/
def replaceAllStr (s pat rep : String) : String :=
  String.mk (replaceAllChars pat.data rep.data s.data)

/--
Processor.Assembler: processes the tree from a fresh processor state; a
non-nil Go error (any collected error lines) aborts with those errors and
discards the rendered text. Otherwise, when some component declared a
styles marker, the literal marker text is substituted in the rendered
output by the link tag, else a nonempty link tag is prefixed; then the
script marker is substituted in the whole buffer, else nonempty script
tags are appended. The result pairs the final text with GetFiles. The Go
result also carries the used-component path map, not involved in any
claim and omitted here.
-/
def assembler (reg : List (String × Component)) (t : Option Node) :
    Option (Except (List ProcErr) (String × List (String × String))) :=
  match processNodeOpt reg t initPState with
  | none => none
  | some (html, st) =>
    if st.errLines ≠ [] then some (Except.error st.errLines)
    else
      let tags := getAssetTags st.assets ""
      let html1 :=
        if st.hasStyles then
          replaceAllStr html (String.mk ([lbrace, lbrace] ++ "styles".data ++ [rbrace, rbrace])) tags.1
        else if tags.1 ≠ "" then tags.1 ++ html else html
      let html2 :=
        if st.hasScripts then
          replaceAllStr html1 (String.mk ([lbrace, lbrace] ++ "script".data ++ [rbrace, rbrace])) tags.2
        else if tags.2 ≠ "" then html1 ++ tags.2 else html1
      some (Except.ok (html2, getFiles st.assets))

/-! ## Component registry (package component) -/

/-- One call to the storage collaborator, for counting the underlying file
reads a registry operation performs. -/
inductive StoreOp where
  | findTpl (p : String)
  | listFiles (p ext : String)
  | readFile (p f : String)
deriving DecidableEq, Repr

/-- The storage collaborator surface used by Registry.Load, kept abstract:
the claims quantify over its behavior. -/
structure Store where
  findTemplateFile : String → Except String String
  listComponentFiles : String → String → Except String (List String)
  readComponent : String → String → Except String String

/-- The dotted-path to file-system path conversion of Registry.Load
(filepath.Join over the dot-separated segments; empty segments are
dropped by Join). Path cleaning beyond that is irrelevant here: the
result is only passed opaquely to the store. -/
def joinSegs : List (List Char) → List Char
  | [] => []
  | [s] => s
  | s :: rest => s ++ '/' :: joinSegs rest

/-- See joinSegs. -/
def fsPathOf (path : String) : String :=
  String.mk (joinSegs ((splitByPred (fun c => c = '.') path.data).filter (fun g => g ≠ [])))

/--
The CSS/JS read loops of Registry.Load: reads each listed file in order,
stopping at the first failure, wrapping the failure message with the given
label, and logging every read performed.
-/
def readFilesAcc (store : Store) (fsPath : String) (wrapLabel : String) :
    List String → Except String (List (String × String)) × List StoreOp
  | [] => (Except.ok [], [])
  | f :: rest =>
    match store.readComponent fsPath f with
    | Except.error e =>
      (Except.error (wrapLabel ++ " " ++ f ++ ": " ++ e), [StoreOp.readFile fsPath f])
    | Except.ok content =>
      match readFilesAcc store fsPath wrapLabel rest with
      | (Except.error e, log) => (Except.error e, StoreOp.readFile fsPath f :: log)
      | (Except.ok others, log) =>
        (Except.ok ((f, content) :: others), StoreOp.readFile fsPath f :: log)

/--
component.Registry.Load: a cache hit returns the stored component with no
store calls at all; otherwise the template is located and read, the CSS
files listed, read and concatenated each with a trailing newline, the JS
files listed and read individually, the component is stored in the cache,
and every store call is logged in order. Any store failure aborts the load
with a wrapped message and leaves the cache unchanged.
-/
def registryLoad (store : Store) (loaded : List (String × Component)) (path : String) :
    Except String Component × List (String × Component) × List StoreOp :=
  match lookupAssoc loaded path with
  | some comp => (Except.ok comp, loaded, [])
  | none =>
    match store.findTemplateFile (fsPathOf path) with
    | Except.error e =>
      (Except.error ("finding template: " ++ e), loaded, [StoreOp.findTpl (fsPathOf path)])
    | Except.ok tplFile =>
      match store.readComponent (fsPathOf path) tplFile with
      | Except.error e =>
        (Except.error e, loaded,
          [StoreOp.findTpl (fsPathOf path), StoreOp.readFile (fsPathOf path) tplFile])
      | Except.ok tpl =>
        match store.listComponentFiles (fsPathOf path) ".css" with
        | Except.error e =>
          (Except.error ("listing CSS files: " ++ e), loaded,
            [StoreOp.findTpl (fsPathOf path), StoreOp.readFile (fsPathOf path) tplFile,
              StoreOp.listFiles (fsPathOf path) ".css"])
        | Except.ok cssFiles =>
          match readFilesAcc store (fsPathOf path) "reading CSS" cssFiles with
          | (Except.error e, log) =>
            (Except.error e, loaded,
              [StoreOp.findTpl (fsPathOf path), StoreOp.readFile (fsPathOf path) tplFile,
                StoreOp.listFiles (fsPathOf path) ".css"] ++ log)
          | (Except.ok cssPairs, cssLog) =>
            match store.listComponentFiles (fsPathOf path) ".js" with
            | Except.error e =>
              (Except.error ("listing JS files: " ++ e), loaded,
                [StoreOp.findTpl (fsPathOf path), StoreOp.readFile (fsPathOf path) tplFile,
                  StoreOp.listFiles (fsPathOf path) ".css"] ++ cssLog
                  ++ [StoreOp.listFiles (fsPathOf path) ".js"])
            | Except.ok jsFiles =>
              match readFilesAcc store (fsPathOf path) "reading JS" jsFiles with
              | (Except.error e, log) =>
                (Except.error e, loaded,
                  [StoreOp.findTpl (fsPathOf path), StoreOp.readFile (fsPathOf path) tplFile,
                    StoreOp.listFiles (fsPathOf path) ".css"] ++ cssLog
                    ++ [StoreOp.listFiles (fsPathOf path) ".js"] ++ log)
              | (Except.ok jsPairs, jsLog) =>
                (Except.ok ⟨path, tpl,
                    cssPairs.foldl (fun acc pr => acc ++ pr.2 ++ "\n") "", jsPairs⟩,
                  loaded ++ [(path, ⟨path, tpl,
                    cssPairs.foldl (fun acc pr => acc ++ pr.2 ++ "\n") "", jsPairs⟩)],
                  [StoreOp.findTpl (fsPathOf path), StoreOp.readFile (fsPathOf path) tplFile,
                    StoreOp.listFiles (fsPathOf path) ".css"] ++ cssLog
                    ++ [StoreOp.listFiles (fsPathOf path) ".js"] ++ jsLog)

/-- component.Registry.Get: a pure cache read returning the loaded
component or nothing; by construction it performs no store calls. -/
def registryGet (loaded : List (String × Component)) (path : String) : Option Component :=
  lookupAssoc loaded path

/-! ## Helper lemmas -/

theorem lookupAssoc_mem {α : Type} {l : List (String × α)} {k : String} {v : α}
    (h : lookupAssoc l k = some v) : (k, v) ∈ l := by
  induction l with
  | nil => simp [lookupAssoc] at h
  | cons p rest ih =>
    rw [lookupAssoc] at h
    by_cases hk : p.1 = k
    · simp [hk] at h
      cases p
      simp_all
    · simp [hk] at h
      right
      exact ih h

theorem lookupAssoc_append_none {α : Type} {l : List (String × α)} {k : String} (v : α)
    (h : lookupAssoc l k = none) : lookupAssoc (l ++ [(k, v)]) k = some v := by
  induction l with
  | nil => simp [lookupAssoc]
  | cons p rest ih =>
    rw [lookupAssoc] at h
    by_cases hk : p.1 = k
    · simp [hk] at h
    · rw [List.cons_append, lookupAssoc]
      simp only [hk, if_false]
      exact ih (by simpa [hk] using h)

theorem updateLast_forall {P : Block → Prop} {f : Block → Block}
    (hf : ∀ b, P b → P (f b)) :
    ∀ blocks, (∀ b ∈ blocks, P b) → ∀ b ∈ updateLast blocks f, P b := by
  intro blocks
  induction blocks with
  | nil => intro _ b hb; simp [updateLast] at hb
  | cons x rest ih =>
    intro hall b hb
    cases rest with
    | nil =>
      simp [updateLast] at hb
      subst hb
      exact hf x (hall x (by simp))
    | cons y rest2 =>
      rw [updateLast] at hb
      rcases List.mem_cons.mp hb with h1 | h2
      · subst h1
        exact hall b (by simp)
      · exact ih (fun c hc => hall c (List.mem_cons_of_mem x hc)) b h2

/-- Every block produced by the line loop satisfies an invariant that new
blocks satisfy and variable appends preserve. -/
theorem parseBlocksAux_forall (P : Block → Prop)
    (hvar : ∀ b k v, P b → P { b with vars := addVar b.vars k v })
    (hline : ∀ l id b, parseLine l id = some b → P b) :
    ∀ lines blocks id, (∀ b ∈ blocks, P b) → ∀ b ∈ parseBlocksAux lines blocks id, P b := by
  intro lines
  induction lines with
  | nil => intro blocks id hall b hb; simpa [parseBlocksAux] using hall b (by simpa [parseBlocksAux] using hb)
  | cons line rest ih =>
    intro blocks id hall b hb
    rw [parseBlocksAux] at hb
    by_cases hdot : isPrefixChars ".".data (trimChars line) = true
    · simp only [hdot, if_true] at hb
      by_cases hempty : blocks = []
      · simp only [hempty, if_true] at hb
        exact ih [] id (by simp) b (by simpa [hempty] using hb)
      · simp only [hempty, if_false] at hb
        rcases hsplit : splitAtEq (trimChars line) with _ | pr
        · rw [hsplit] at hb
          exact ih blocks id hall b hb
        · rw [hsplit] at hb
          simp only at hb
          by_cases hvn : isPrefixChars ".".data (trimChars pr.1) = true
          · simp only [hvn, if_true] at hb
            exact ih _ id (updateLast_forall (fun c hc => hvar c _ _ hc) blocks hall) b hb
          · simp only [hvn, if_false] at hb
            exact ih blocks id hall b hb
    · simp only [hdot, if_false] at hb
      rcases hpl : parseLine (trimChars line) id with _ | nb
      · rw [hpl] at hb
        exact ih blocks id hall b hb
      · rw [hpl] at hb
        refine ih (blocks ++ [nb]) (id + 1) ?_ b hb
        intro c hc
        rcases List.mem_append.mp hc with h1 | h2
        · exact hall c h1
        · simp at h2
          subst h2
          exact hline _ id c hpl

theorem splitByPred_ne_nil (p : Char → Bool) (cs : List Char) : splitByPred p cs ≠ [] := by
  cases cs with
  | nil => simp [splitByPred]
  | cons c rest =>
    rw [splitByPred]
    rcases h : splitByPred p rest with _ | ⟨g, gs⟩ <;> simp only [h] <;> split <;> simp

theorem parseIndex_ne_nil {g : List Char} {gs : List (List Char)} {idx : List Int}
    (h : parseIndex (g :: gs) = some idx) : idx ≠ [] := by
  rw [parseIndex] at h
  rcases ha : atoiChars g with _ | n
  · simp [ha] at h
  · simp only [ha] at h
    rcases hb : parseIndex gs with _ | ns
    · simp [hb] at h
    · simp only [hb, Option.map_some', Option.some_inj] at h
      simp [← h]

/-- parseLine only produces blocks with a nonempty index. -/
theorem parseLine_index_ne {l : List Char} {id : Int} {b : Block}
    (h : parseLine l id = some b) : b.index ≠ [] := by
  rw [parseLine] at h
  split at h
  · simp at h
  · split at h
    · simp at h
    · split at h
      · simp at h
      · split at h
        · rename_i p0 p1 heq
          rcases hpi : parseIndex (splitByPred (fun c => c = '.') (trimTrailingDots p0)) with
            _ | idx
          · rw [hpi] at h; simp at h
          · rw [hpi] at h
            simp only [Option.some_inj] at h
            rcases hsp : splitByPred (fun c => c = '.') (trimTrailingDots p0) with _ | ⟨g, gs⟩
            · exact absurd hsp (splitByPred_ne_nil _ _)
            · rw [hsp] at hpi
              have := parseIndex_ne_nil hpi
              simp [← h]
              exact this
        · simp at h

/-- Every block the parser produces has a nonempty index. -/
theorem parseBlocks_index_ne (content : String) :
    ∀ b ∈ parseBlocks content, b.index ≠ [] := by
  refine parseBlocksAux_forall (fun b => b.index ≠ []) ?_ ?_ _ [] 0 (by simp)
  · intro b k v h
    simpa using h
  · intro l id b h
    exact parseLine_index_ne h

/-- The attach pass fails exactly when the walked indices collide among
themselves or with an already-seen key. -/
theorem computeParents_none_iff :
    ∀ (bs : List Block) (seen : List (List Int)),
      computeParents bs seen = none ↔
        ¬ ((bs.map Block.index).Nodup ∧ ∀ i ∈ bs.map Block.index, i ∉ seen) := by
  intro bs
  induction bs with
  | nil => intro seen; simp [computeParents]
  | cons b rest ih =>
    intro seen
    rw [computeParents]
    by_cases hb : b.index ∈ seen
    · simp only [hb, if_true, List.map_cons]
      exact iff_of_true trivial (fun hp => (hp.2 b.index (by simp)) hb)
    · simp only [hb, if_false]
      have hiff : ((rest.map Block.index).Nodup ∧
            ∀ i ∈ rest.map Block.index, i ∉ b.index :: seen) ↔
          ((b.index :: rest.map Block.index).Nodup ∧
            ∀ i ∈ b.index :: rest.map Block.index, i ∉ seen) := by
        constructor
        · rintro ⟨hnd, hall⟩
          refine ⟨?_, ?_⟩
          · rw [List.nodup_cons]
            exact ⟨fun hm => (hall b.index hm) (by simp), hnd⟩
          · intro i hi
            rcases List.mem_cons.mp hi with h1 | h2
            · exact h1 ▸ hb
            · exact fun hm => (hall i h2) (List.mem_cons_of_mem _ hm)
        · rintro ⟨hnd, hall⟩
          rw [List.nodup_cons] at hnd
          refine ⟨hnd.2, fun i hi hm => ?_⟩
          rcases List.mem_cons.mp hm with h1 | h2
          · exact hnd.1 (h1 ▸ hi)
          · exact (hall i (List.mem_cons_of_mem _ hi)) h2
      rcases hc : computeParents rest (b.index :: seen) with _ | ps
      · have h1 := (ih _).mp hc
        simp only [hc, Option.map_none', List.map_cons]
        exact iff_of_true trivial (fun hp => h1 (hiff.mpr hp))
      · have hPos : (rest.map Block.index).Nodup ∧
            ∀ i ∈ rest.map Block.index, i ∉ b.index :: seen := by
          by_contra hneg
          have := (ih _).mpr hneg
          rw [hc] at this
          exact Option.noConfusion this
        simp only [hc, Option.map_some', List.map_cons]
        exact iff_of_false (by simp) (not_not_intro (hiff.mp hPos))

/-- buildTree yields no tree exactly for no blocks or a failing attach
pass. -/
theorem buildTree_none_iff (blocks : List Block) :
    buildTree blocks = none ↔ (blocks = [] ∨ computeParents blocks [[]] = none) := by
  rw [buildTree]
  by_cases hb : blocks = []
  · simp [hb]
  · simp only [hb, if_false, false_or]
    rcases h : computeParents blocks [[]] with _ | pairs <;> simp [h]

theorem str_nil_append (s : String) : "" ++ s = s := by
  apply String.ext
  simp [String.data_append]

theorem str_append_nil (s : String) : s ++ "" = s := by
  apply String.ext
  simp [String.data_append]

theorem str_append_assoc (a b c : String) : a ++ b ++ c = a ++ (b ++ c) := by
  apply String.ext
  simp [String.data_append]

/-! ## Claim C1 — styles and script marker handling of the Assembler -/

/-- The registry for the C1 failing input: one component whose template
declares a styles marker inside a head element, with nonempty CSS and no
scripts. -/
def regC1 : List (String × Component) :=
  [("c", ⟨"c", String.mk ("<head>".data ++ [lbrace, lbrace] ++ "styles".data
      ++ [rbrace, rbrace] ++ "</head>".data), "bodycss", []⟩)]

/-- The C1 failing input tree: the synthetic root with the single
component placement. -/
def treeC1 : Node :=
  Node.node rootBlock [Node.node ⟨"c", [1], 0, []⟩ []]

/--
C1: the claim says a declared styles marker gets the generated link tag
substituted at the marker position. In the code the tokenizer consumes the
marker directive into a StyleToken that emits no text, so the rendered
output never contains the literal marker text and the ReplaceAll of the
Assembler is a no-op: with a styles marker declared and CSS present, the
assembled page contains no link tag at all, even though the asset manager
generated one (second conjunct) and the merged stylesheet file is emitted.
-/
theorem c1_styles_marker_substitution_fails :
    assembler regC1 (some treeC1) =
      some (Except.ok ("<head></head>", [("styles.css", "bodycss")])) ∧
    getAssetTags (processComponentAssets (⟨"c", "", "bodycss", []⟩ : Component) assetsNew) ""
      = ("<link rel=\"stylesheet\" href=\"css/styles.css\">", "") := by
  constructor
  · simp [assembler, processNodeOpt, processNode, processChildren, regC1, treeC1, rootBlock,
      Node.block, Node.children, lookupAssoc, tokenize, tokenizeAux, findPair, dirTokens,
      trimChars, isPrefixChars, lbrace, rbrace, interpTokens, processComponentAssets,
      generateHash, initPState, getAssetTags, getFiles, joinPath2, insertAssoc, updateAssoc,
      trimSuffixStr, trimSuffixChars, trimString, replaceAllStr, replaceAllChars, assetsNew]
  · simp [getAssetTags, processComponentAssets, generateHash, assetsNew, joinPath2,
      lookupAssoc, trimString, trimChars]

/-! ## Claim C2 — deduplicated JS content under multiple derived names -/

/-- The asset-manager state after two components with byte-identical
script content under different derived names. -/
def stC2 : AssetsState :=
  processComponentAssets ⟨"y.b", "", "", [("s.js", "JS")]⟩
    (processComponentAssets ⟨"x.a", "", "", [("s.js", "JS")]⟩ assetsNew)

/--
C2 counterexample: with two components contributing byte-identical JS
content under the derived names x-a-s and y-b-s there is exactly one
distinct content hash (second conjunct), yet the files() result contains
two physical file entries — one per derived name, each carrying the full
content — not the single entry per distinct content hash the claim states.
-/
theorem c2_two_files_for_one_hash :
    getFiles stC2 = [("x-a-s.js", "JS"), ("y-b-s.js", "JS")] ∧ stC2.jsKeys = ["JS"] ∧
    getAssetTags stC2 "" =
      ("", "<script src=\"js/x-a-s.js\"></script>\n<script src=\"js/y-b-s.js\"></script>") := by
  refine ⟨?_, ?_, ?_⟩
  · simp [stC2, processComponentAssets, generateHash, assetsNew, getFiles, insertAssoc,
      updateAssoc, lookupAssoc, sanitizeFileName, collapseDashes, trimDashes, isAlnum,
      trimSuffixStr, trimSuffixChars, isPrefixChars]
  · simp [stC2, processComponentAssets, generateHash, assetsNew, lookupAssoc]
  · simp [stC2, processComponentAssets, generateHash, assetsNew, getAssetTags, joinPath2,
      lookupAssoc, updateAssoc, sanitizeFileName, collapseDashes, trimDashes, isAlnum,
      trimSuffixStr, trimSuffixChars, isPrefixChars, trimString, trimChars]

/-! ## Claim C4 — when parse returns no tree -/

/--
C4 counterexample: the empty blueprint source produces no blocks at all —
so in particular no duplicate index collision — and yet parse returns no
tree, because buildTree returns nil for an empty block list. This refutes
the claim that a null tree occurs only on a duplicate collision.
-/
theorem c4_empty_input_no_tree :
    parseBlocks "" = [] ∧ (blueprintNew "").1 = none := by
  constructor
  · simp [parseBlocks, parseBlocksAux, splitLines, splitByPred, trimChars, isPrefixChars,
      parseLine]
  · simp [blueprintNew, parseBlocks, parseBlocksAux, splitLines, splitByPred, trimChars,
      isPrefixChars, parseLine, buildTree]

/--
C4 amended: parse returns a null tree exactly when either no line of the
source parses as a block, or the parsed block index paths collide;
otherwise a tree is returned. (Amended from the claim by adding the
no-block case, which the counterexample exhibits.)
-/
theorem c4_null_tree_iff :
    ∀ content : String,
      (blueprintNew content).1 = none ↔
        (parseBlocks content = [] ∨ ¬ ((parseBlocks content).map Block.index).Nodup) := by
  intro content
  have hinv := parseBlocks_index_ne content
  show buildTree (parseBlocks content) = none ↔ _
  rw [buildTree_none_iff, computeParents_none_iff]
  constructor
  · rintro (h1 | h2)
    · exact Or.inl h1
    · by_cases hnd : ((parseBlocks content).map Block.index).Nodup
      · exfalso
        apply h2
        refine ⟨hnd, ?_⟩
        intro i hi
        obtain ⟨b, hb, hbi⟩ := List.mem_map.mp hi
        simp only [List.mem_singleton]
        exact fun he => hinv b hb (hbi ▸ he ▸ rfl)
      · exact Or.inr hnd
  · rintro (h1 | h2)
    · exact Or.inl h1
    · exact Or.inr (fun hp => h2 hp.1)

/-! ## Claim C7 — sibling ordering -/

theorem sortForest_eq_map : ∀ l : List Node, sortForest l = l.map sortTree := by
  intro l
  induction l with
  | nil => rw [sortForest]; rfl
  | cons c cs ih => rw [sortForest]; simp [ih]

theorem sortTree_block (n : Node) : (sortTree n).block = n.block := by
  cases n with
  | node b cs =>
    rw [sortTree]
    simp [Node.block]

theorem lastKey_sortTree (n : Node) : lastKey (sortTree n) = lastKey n := by
  simp [lastKey, sortTree_block]

theorem firstKey_sortTree (n : Node) : firstKey (sortTree n) = firstKey n := by
  simp [firstKey, sortTree_block]

/-- Every sibling list below (and including) this node is sorted ascending
by the last index segment. -/
inductive ChildrenSortedByLast : Node → Prop where
  | mk (b : Block) (cs : List Node) :
      List.Pairwise (fun x y => lastKey x ≤ lastKey y) cs →
      (∀ c ∈ cs, ChildrenSortedByLast c) → ChildrenSortedByLast (Node.node b cs)

instance lastKeyLeTotal : IsTotal Node (fun a c => lastKey a ≤ lastKey c) :=
  ⟨fun a c => le_total _ _⟩

instance lastKeyLeTrans : IsTrans Node (fun a c => lastKey a ≤ lastKey c) :=
  ⟨fun _ _ _ h1 h2 => le_trans h1 h2⟩

instance firstKeyLeTotal : IsTotal Node (fun a c => firstKey a ≤ firstKey c) :=
  ⟨fun a c => le_total _ _⟩

instance firstKeyLeTrans : IsTrans Node (fun a c => firstKey a ≤ firstKey c) :=
  ⟨fun _ _ _ h1 h2 => le_trans h1 h2⟩

theorem sortTree_sorted_aux :
    ∀ (k : Nat) (n : Node), sizeOf n ≤ k → ChildrenSortedByLast (sortTree n) := by
  intro k
  induction k with
  | zero =>
    intro n hn
    exfalso
    cases n with
    | node b cs => simp at hn
  | succ k ih =>
    intro n hn
    cases n with
    | node b cs =>
      rw [sortTree, sortForest_eq_map]
      constructor
      · have hs : List.Pairwise (fun a c => lastKey a ≤ lastKey c)
            (List.insertionSort (fun a c => lastKey a ≤ lastKey c) cs) :=
          List.sorted_insertionSort _ cs
        rw [List.pairwise_map]
        exact hs.imp (fun h => by simpa [lastKey_sortTree] using h)
      · intro c hc
        obtain ⟨c0, hc0, rfl⟩ := List.mem_map.mp hc
        have hmem : c0 ∈ cs := (List.perm_insertionSort _ cs).mem_iff.mp hc0
        have hsz : sizeOf c0 ≤ k := by
          have h1 := List.sizeOf_lt_of_mem hmem
          have h2 : sizeOf (Node.node b cs) = 1 + sizeOf b + sizeOf cs := by simp
          omega
        exact ih c0 hsz

/-- sortNodes leaves every non-root sibling list sorted ascending by the
last index segment. -/
theorem sortTree_childrenSorted (n : Node) : ChildrenSortedByLast (sortTree n) :=
  sortTree_sorted_aux (sizeOf n) n (le_refl _)

/--
C7 counterexample: for the source "2 a" then "3.1 b" (block b is an orphan
— its parent index 3 never occurs — so it attaches directly under the
root), the parsed tree has the root children a then b in that order,
because root children are sorted by the first index segment (2 before 3).
Ordering by the final segment of each sibling, as the claim states, would
put b (final segment 1) before a (final segment 2): the root sibling list
is not sorted by final segments.
-/
theorem c7_root_sorted_by_first_segment :
    (blueprintNew "2 a\n3.1 b").1 =
      some (Node.node rootBlock
        [Node.node ⟨"a", [2], 0, []⟩ [], Node.node ⟨"b", [3, 1], 1, []⟩ []]) ∧
    ¬ List.Pairwise (fun x y => lastKey x ≤ lastKey y)
      [Node.node ⟨"a", [2], 0, []⟩ [], Node.node ⟨"b", [3, 1], 1, []⟩ []] := by
  constructor
  · simp [blueprintNew, parseBlocks, parseBlocksAux, splitLines, splitByPred, trimChars,
      isPrefixChars, parseLine, fieldsChars, trimTrailingDots, atoiChars, digitsVal,
      parseIndex, buildTree, computeParents, assembleForest, rootBlock, sortRootTree,
      sortForest, sortTree, List.insertionSort, List.orderedInsert, firstKey, lastKey,
      Node.block]
  · simp [List.pairwise_cons, lastKey, Node.block]

/--
C7 amended: in every parsed blueprint tree, the children of every non-root
node are sorted ascending by the final segment of their index — ties are
impossible there, duplicates being rejected, so sibling order under a
non-root parent depends only on the final segments, independent of source
order — while the root's direct children (top-level blocks and orphans)
are sorted by the first segment of their index instead. The second
conjunct shows the claim's instance under a present parent: blocks 1.2 a
then 1.1 b in source order render b before a.
-/
theorem c7_sibling_order :
    (∀ (content : String) (b : Block) (cs : List Node),
      (blueprintNew content).1 = some (Node.node b cs) →
        List.Pairwise (fun x y => firstKey x ≤ firstKey y) cs ∧
        ∀ c ∈ cs, ChildrenSortedByLast c) ∧
    (blueprintNew "1 c\n1.2 a\n1.1 b").1 =
      some (Node.node rootBlock
        [Node.node ⟨"c", [1], 0, []⟩
          [Node.node ⟨"b", [1, 1], 2, []⟩ [], Node.node ⟨"a", [1, 2], 1, []⟩ []]]) := by
  constructor
  · intro content b cs h0
    have h : buildTree (parseBlocks content) = some (Node.node b cs) := h0
    rw [buildTree] at h
    split at h
    · exact absurd h (by simp)
    · rcases hc : computeParents (parseBlocks content) [[]] with _ | pairs
      · rw [hc] at h
        exact absurd h (by simp)
      · rw [hc] at h
        simp only [Option.some_inj] at h
        rw [sortRootTree, sortForest_eq_map] at h
        cases h
        constructor
        · have hs : List.Pairwise (fun a c => firstKey a ≤ firstKey c)
              (List.insertionSort (fun a c => firstKey a ≤ firstKey c)
                ((assembleForest pairs).map (fun e => e.2))) :=
            List.sorted_insertionSort _ _
          rw [List.pairwise_map]
          exact hs.imp (fun h => by simpa [firstKey_sortTree] using h)
        · intro c hc2
          obtain ⟨c0, _, rfl⟩ := List.mem_map.mp hc2
          exact sortTree_childrenSorted c0
  · simp [blueprintNew, parseBlocks, parseBlocksAux, splitLines, splitByPred, trimChars,
      isPrefixChars, parseLine, fieldsChars, trimTrailingDots, atoiChars, digitsVal,
      parseIndex, buildTree, computeParents, assembleForest, rootBlock, sortRootTree,
      sortForest, sortTree, List.insertionSort, List.orderedInsert, firstKey, lastKey,
      Node.block]

/-- Witness instantiating the C7 amended theorem at the orphan source. -/
theorem c7_sibling_order_witness :
    List.Pairwise (fun x y => firstKey x ≤ firstKey y)
      [Node.node ⟨"a", [2], 0, []⟩ [], Node.node ⟨"b", [3, 1], 1, []⟩ []] ∧
    ∀ c ∈ [Node.node (⟨"a", [2], 0, []⟩ : Block) [], Node.node ⟨"b", [3, 1], 1, []⟩ []],
      ChildrenSortedByLast c :=
  c7_sibling_order.1 "2 a\n3.1 b" rootBlock
    [Node.node ⟨"a", [2], 0, []⟩ [], Node.node ⟨"b", [3, 1], 1, []⟩ []]
    (by simp [blueprintNew, parseBlocks, parseBlocksAux, splitLines, splitByPred, trimChars,
      isPrefixChars, parseLine, fieldsChars, trimTrailingDots, atoiChars, digitsVal,
      parseIndex, buildTree, computeParents, assembleForest, rootBlock, sortRootTree,
      sortForest, sortTree, List.insertionSort, List.orderedInsert, firstKey, lastKey,
      Node.block])

/-! ## Claim C2 amended — one file and one tag per derived name -/

theorem trimChars_wrap (a z : Char) (mid : List Char)
    (ha : a.isWhitespace = false) (hz : z.isWhitespace = false) :
    trimChars (a :: (mid ++ [z, '\n'])) = a :: (mid ++ [z]) := by
  have h1 : List.dropWhile Char.isWhitespace (a :: (mid ++ [z, '\n'])) =
      a :: (mid ++ [z, '\n'])  := List.dropWhile_cons_of_neg (by simp [ha])
  rw [trimChars, h1]
  have h2 : (a :: (mid ++ [z, '\n'])).reverse = '\n' :: z :: (a :: mid).reverse := by
    simp
  rw [h2]
  rw [List.dropWhile_cons_of_pos (by decide)]
  rw [List.dropWhile_cons_of_neg (by simp [hz])]
  simp

theorem data_mk (l : List Char) : (String.mk l).data = l := rfl

/-- Trimming the trailing newline off a two-script-tag string: the string
starts with a non-whitespace character and, before the final newline, ends
with one, so TrimSpace removes exactly that newline. -/
theorem trimString_two_tags (x y : String) :
    trimString ("<script src=\"js/" ++ x ++ ".js\"></script>\n<script src=\"js/" ++ y
        ++ ".js\"></script>" ++ "\n") =
      "<script src=\"js/" ++ x ++ ".js\"></script>\n<script src=\"js/" ++ y
        ++ ".js\"></script>" := by
  apply String.ext
  rw [trimString]
  have harg : (("<script src=\"js/" ++ x ++ ".js\"></script>\n<script src=\"js/" ++ y
        ++ ".js\"></script>" ++ "\n" : String)).data
      = '<' :: (("script src=\"js/".data ++ x.data
          ++ ".js\"></script>\n<script src=\"js/".data ++ y.data
          ++ ".js\"></script".data) ++ ['>', '\n']) := by
    simp [String.data_append, List.append_assoc]
  rw [harg]
  rw [trimChars_wrap '<' '>' _ (by decide) (by decide)]
  simp [data_mk, String.data_append, List.append_assoc]

/--
C2 amended: two components contributing byte-identical JS content under
distinct derived names share one stored jsAsset (one entry per distinct
content hash, carrying both names), while files() materializes one
physical file entry per derived name — each mapping to the identical
content — and the emitted script tags contain exactly one tag per derived
name (third conjunct).
-/
theorem c2_amended_one_file_per_name (p1 p2 t1 t2 fname content : String)
    (hne : sanitizeFileName (sanitizeFileName p1 ++ "-" ++ trimSuffixStr fname ".js") ≠
      sanitizeFileName (sanitizeFileName p2 ++ "-" ++ trimSuffixStr fname ".js")) :
    (processComponentAssets ⟨p2, t2, "", [(fname, content)]⟩
        (processComponentAssets ⟨p1, t1, "", [(fname, content)]⟩ assetsNew)).js =
      [(content, ⟨content, [sanitizeFileName p1 ++ "-" ++ trimSuffixStr fname ".js",
        sanitizeFileName p2 ++ "-" ++ trimSuffixStr fname ".js"]⟩)] ∧
    getFiles (processComponentAssets ⟨p2, t2, "", [(fname, content)]⟩
        (processComponentAssets ⟨p1, t1, "", [(fname, content)]⟩ assetsNew)) =
      [(sanitizeFileName (sanitizeFileName p1 ++ "-" ++ trimSuffixStr fname ".js") ++ ".js",
          content),
        (sanitizeFileName (sanitizeFileName p2 ++ "-" ++ trimSuffixStr fname ".js") ++ ".js",
          content)] ∧
    (getAssetTags (processComponentAssets ⟨p2, t2, "", [(fname, content)]⟩
        (processComponentAssets ⟨p1, t1, "", [(fname, content)]⟩ assetsNew)) "").2 =
      "<script src=\"js/"
        ++ sanitizeFileName (sanitizeFileName p1 ++ "-" ++ trimSuffixStr fname ".js")
        ++ ".js\"></script>\n<script src=\"js/"
        ++ sanitizeFileName (sanitizeFileName p2 ++ "-" ++ trimSuffixStr fname ".js")
        ++ ".js\"></script>" := by
  refine ⟨?_, ?_, ?_⟩
  · simp [processComponentAssets, generateHash, assetsNew, lookupAssoc, updateAssoc]
  · simp only [processComponentAssets, generateHash, assetsNew]
    simp only [lookupAssoc]
    simp [getFiles, insertAssoc, updateAssoc, lookupAssoc, hne]
    intro heq
    apply hne
    have hd := congrArg String.data heq
    simp only [String.data_append] at hd
    exact String.ext (List.append_cancel_right hd)
  · simp [processComponentAssets, generateHash, assetsNew, lookupAssoc, updateAssoc,
      getAssetTags, joinPath2, List.foldl_cons, List.foldl_nil]
    trans trimString ("<script src=\"js/"
      ++ sanitizeFileName (sanitizeFileName p1 ++ "-" ++ trimSuffixStr fname ".js")
      ++ ".js\"></script>\n<script src=\"js/"
      ++ sanitizeFileName (sanitizeFileName p2 ++ "-" ++ trimSuffixStr fname ".js")
      ++ ".js\"></script>" ++ "\n")
    · refine congrArg trimString ?_
      apply String.ext
      simp [String.data_append, List.append_assoc]
    · exact trimString_two_tags _ _

/-- Witness instantiating the C2 amended theorem at the counterexample
components. -/
theorem c2_amended_witness :
    (processComponentAssets ⟨"y.b", "t2", "", [("s.js", "JS")]⟩
        (processComponentAssets ⟨"x.a", "t1", "", [("s.js", "JS")]⟩ assetsNew)).js =
      [("JS", ⟨"JS", [sanitizeFileName "x.a" ++ "-" ++ trimSuffixStr "s.js" ".js",
        sanitizeFileName "y.b" ++ "-" ++ trimSuffixStr "s.js" ".js"]⟩)] ∧
    getFiles (processComponentAssets ⟨"y.b", "t2", "", [("s.js", "JS")]⟩
        (processComponentAssets ⟨"x.a", "t1", "", [("s.js", "JS")]⟩ assetsNew)) =
      [(sanitizeFileName (sanitizeFileName "x.a" ++ "-" ++ trimSuffixStr "s.js" ".js") ++ ".js",
          "JS"),
        (sanitizeFileName (sanitizeFileName "y.b" ++ "-" ++ trimSuffixStr "s.js" ".js") ++ ".js",
          "JS")] ∧
    (getAssetTags (processComponentAssets ⟨"y.b", "t2", "", [("s.js", "JS")]⟩
        (processComponentAssets ⟨"x.a", "t1", "", [("s.js", "JS")]⟩ assetsNew)) "").2 =
      "<script src=\"js/"
        ++ sanitizeFileName (sanitizeFileName "x.a" ++ "-" ++ trimSuffixStr "s.js" ".js")
        ++ ".js\"></script>\n<script src=\"js/"
        ++ sanitizeFileName (sanitizeFileName "y.b" ++ "-" ++ trimSuffixStr "s.js" ".js")
        ++ ".js\"></script>" :=
  c2_amended_one_file_per_name "x.a" "y.b" "t1" "t2" "s.js" "JS"
    (by simp [sanitizeFileName, collapseDashes, trimDashes, isAlnum, trimSuffixStr,
      trimSuffixChars, isPrefixChars])

/-! ## Claims C6, C9, C10 — the token interpreter -/

/-- The net effect on the marker flags of scanning a token list while an
open range is active: Style and Script tokens set their flags even there,
everything else leaves the state unchanged. A derived characterization
used to state the range-unrolling lemmas; proved against interpTokens
below, never assumed. -/
def scanFlags (body : List Token) (st : PState) : PState :=
  body.foldl (fun s t =>
    match t with
    | Token.style => { s with hasStyles := true }
    | Token.script => { s with hasScripts := true }
    | _ => s) st

/--
Scanning from inside an open range up to the closing marker accumulates
exactly the intervening tokens, sets the marker flags they contain, and
then emits one replay of the accumulated body per rangeContent value.
-/
theorem interp_range_scan (vars : List (String × List String))
    (rch : PState → Option (String × PState)) :
    ∀ (body : List Token), Token.rangeEnd ∉ body →
      ∀ (rest : List Token) (acc : List Token) (rv : String) (rc : List String)
        (st : PState),
      interpTokens vars rch (body ++ Token.rangeEnd :: rest) true acc rv rc st =
        (interpTokens vars rch rest false [] rv rc (scanFlags body st)).map
          (fun r => (rc.foldl (fun o v => o ++ replay vars rv (acc ++ body) v) "" ++ r.1,
            r.2)) := by
  intro body
  induction body with
  | nil =>
    intro _ rest acc rv rc st
    simp only [List.nil_append]
    rw [interpTokens]
    simp [scanFlags]
  | cons t ts ih =>
    intro hmem rest acc rv rc st
    have hne : t ≠ Token.rangeEnd := fun he => hmem (he ▸ List.mem_cons_self _ _)
    have hts : Token.rangeEnd ∉ ts := fun hm => hmem (List.mem_cons_of_mem _ hm)
    cases t with
    | text s2 =>
      rw [List.cons_append, interpTokens]
      simp only [if_true]
      rw [ih hts rest (acc ++ [Token.text s2]) rv rc st]
      simp [scanFlags, List.append_assoc]
    | rangeStart n =>
      rw [List.cons_append, interpTokens]
      simp only [if_true]
      rw [ih hts rest (acc ++ [Token.rangeStart n]) rv rc st]
      simp [scanFlags, List.append_assoc]
    | rangeEnd => exact absurd rfl hne
    | var n =>
      rw [List.cons_append, interpTokens]
      simp only [if_true]
      rw [ih hts rest (acc ++ [Token.var n]) rv rc st]
      simp [scanFlags, List.append_assoc]
    | component =>
      rw [List.cons_append, interpTokens]
      simp only [if_true]
      rw [ih hts rest (acc ++ [Token.component]) rv rc st]
      simp [scanFlags, List.append_assoc]
    | style =>
      rw [List.cons_append, interpTokens]
      simp only [if_true]
      rw [ih hts rest (acc ++ [Token.style]) rv rc { st with hasStyles := true }]
      simp [scanFlags, List.append_assoc]
    | script =>
      rw [List.cons_append, interpTokens]
      simp only [if_true]
      rw [ih hts rest (acc ++ [Token.script]) rv rc { st with hasScripts := true }]
      simp [scanFlags, List.append_assoc]

/--
Unrolling one whole range block: the directive opens the range (updating
rangeContent only when the variable is bound), the body is scanned for
flags, and the body is replayed once per rangeContent value before the
interpretation continues after the closing marker.
-/
theorem interp_range_unroll (vars : List (String × List String))
    (rch : PState → Option (String × PState)) (n : String)
    (body rest : List Token) (acc : List Token) (rv : String) (rc : List String)
    (st : PState) (hb : Token.rangeEnd ∉ body) :
    interpTokens vars rch (Token.rangeStart n :: (body ++ Token.rangeEnd :: rest))
        false acc rv rc st =
      (interpTokens vars rch rest false [] n (rcUpdate vars n rc)
          (scanFlags body st)).map
        (fun r => ((rcUpdate vars n rc).foldl
            (fun o v => o ++ replay vars n body v) "" ++ r.1, r.2)) := by
  rw [interpTokens]
  simp only [Bool.false_eq_true, if_false]
  rw [interp_range_scan vars rch body hb rest [] n (rcUpdate vars n rc) st]
  simp

/-- A fold appending one fragment per element factors an arbitrary
initial accumulator out front. -/
theorem foldl_append_factor {α : Type} (g : α → String) :
    ∀ (l : List α) (init : String),
      l.foldl (fun acc t => acc ++ g t) init =
        init ++ l.foldl (fun acc t => acc ++ g t) "" := by
  intro l
  induction l with
  | nil => intro init; simp [str_append_nil]
  | cons t ts ih =>
    intro init
    rw [List.foldl_cons, ih, List.foldl_cons, ih ("" ++ g t), str_nil_append,
      str_append_assoc]

/-- Replay distributes over token-list concatenation. -/
theorem replay_append (vars : List (String × List String)) (rv v : String)
    (b1 b2 : List Token) :
    replay vars rv (b1 ++ b2) v = replay vars rv b1 v ++ replay vars rv b2 v := by
  rw [replay, List.foldl_append, foldl_append_factor]
  rfl

/--
C6: with the sequence a, b, c bound to the range variable, a range block
renders its body exactly three times — substituting a, b and c respectively
for the loop variable — before interpretation continues after the block
(first conjunct; replay is the per-iteration body rendering of the source).
Within an iteration the loop variable yields the iteration value, any
other bound Var token yields the first value of its own binding, and
replay acts tokenwise (remaining conjuncts).
-/
theorem c6_range_renders_three_times (vars : List (String × List String))
    (rch : PState → Option (String × PState)) (name a b c : String)
    (body rest : List Token) (st : PState)
    (hlook : lookupAssoc vars name = some [a, b, c])
    (hb : Token.rangeEnd ∉ body) :
    interpTokens vars rch (Token.rangeStart name :: (body ++ Token.rangeEnd :: rest))
        false [] "" [] st =
      (interpTokens vars rch rest false [] name [a, b, c] (scanFlags body st)).map
        (fun r => (replay vars name body a ++ replay vars name body b
          ++ replay vars name body c ++ r.1, r.2)) ∧
    (∀ v, replay vars name [Token.var name] v = v) ∧
    (∀ (m w : String) (ws : List String) (v : String), m ≠ name →
      lookupAssoc vars m = some (w :: ws) → replay vars name [Token.var m] v = w) ∧
    (∀ (s2 v : String), replay vars name [Token.text s2] v = s2) ∧
    (∀ (b1 b2 : List Token) (v : String),
      replay vars name (b1 ++ b2) v = replay vars name b1 v ++ replay vars name b2 v) := by
  refine ⟨?_, ?_, ?_, ?_, ?_⟩
  · rw [interp_range_unroll vars rch name body rest [] "" [] st hb]
    simp only [rcUpdate, hlook]
    rcases hX : interpTokens vars rch rest false [] name [a, b, c] (scanFlags body st)
      with _ | r
    · simp
    · simp [List.foldl_cons, List.foldl_nil, str_nil_append, str_append_assoc]
  · intro v
    simp [replay, replayTok, str_nil_append]
  · intro m w ws v hm hl
    simp [replay, replayTok, hm, hl, str_nil_append]
  · intro s2 v
    simp [replay, replayTok, str_nil_append]
  · intro b1 b2 v
    exact replay_append vars name v b1 b2

/-- Witness instantiating C6 through the real tokenizer on the template
X{{range .items}}<li>{{.items}}</li>{{range end}}Y. -/
theorem c6_witness :
    interpTokens [("items", ["a", "b", "c"])] (fun st => some ("", st))
        (Token.rangeStart "items" ::
          ([Token.text "<li>", Token.var "items", Token.text "</li>"]
            ++ Token.rangeEnd :: [Token.text "Y"])) false [] "" [] initPState =
      (interpTokens [("items", ["a", "b", "c"])] (fun st => some ("", st))
          [Token.text "Y"] false [] "items" ["a", "b", "c"]
          (scanFlags [Token.text "<li>", Token.var "items", Token.text "</li>"] initPState)).map
        (fun r =>
          (replay [("items", ["a", "b", "c"])] "items"
              [Token.text "<li>", Token.var "items", Token.text "</li>"] "a"
            ++ replay [("items", ["a", "b", "c"])] "items"
              [Token.text "<li>", Token.var "items", Token.text "</li>"] "b"
            ++ replay [("items", ["a", "b", "c"])] "items"
              [Token.text "<li>", Token.var "items", Token.text "</li>"] "c"
            ++ r.1, r.2)) ∧
    tokenize
        "X\x7b\x7brange .items\x7d\x7d<li>\x7b\x7b.items\x7d\x7d</li>\x7b\x7brange end\x7d\x7dY"
      = Token.text "X" :: Token.rangeStart "items" ::
          ([Token.text "<li>", Token.var "items", Token.text "</li>"]
            ++ Token.rangeEnd :: [Token.text "Y"]) := by
  constructor
  · exact (c6_range_renders_three_times [("items", ["a", "b", "c"])] (fun st => some ("", st))
      "items" "a" "b" "c" [Token.text "<li>", Token.var "items", Token.text "</li>"]
      [Token.text "Y"] initPState (by simp [lookupAssoc]) (by decide)).1
  · simp [tokenize, tokenizeAux, findPair, dirTokens, trimChars, isPrefixChars, lbrace, rbrace]

/--
C10: a closed range does not clear the saved rangeContent. A first range
block over a bound variable followed by a second range block over a
variable with no binding renders the second body once per value of the
first block's sequence — the second block's foldl runs over vs, not over
an empty sequence.
-/
theorem c10_second_range_reuses_content (vars : List (String × List String))
    (rch : PState → Option (String × PState)) (n1 n2 : String) (vs : List String)
    (body1 body2 rest : List Token) (st : PState)
    (h1 : lookupAssoc vars n1 = some vs) (h2 : lookupAssoc vars n2 = none)
    (hb1 : Token.rangeEnd ∉ body1) (hb2 : Token.rangeEnd ∉ body2) :
    interpTokens vars rch
        (Token.rangeStart n1 :: (body1 ++ Token.rangeEnd ::
          (Token.rangeStart n2 :: (body2 ++ Token.rangeEnd :: rest)))) false [] "" [] st =
      (interpTokens vars rch rest false [] n2 vs
          (scanFlags body2 (scanFlags body1 st))).map
        (fun r => (vs.foldl (fun o v => o ++ replay vars n1 body1 v) "" ++
          (vs.foldl (fun o v => o ++ replay vars n2 body2 v) "" ++ r.1), r.2)) := by
  rw [interp_range_unroll vars rch n1 body1 _ [] "" [] st hb1]
  simp only [rcUpdate, h1]
  rw [interp_range_unroll vars rch n2 body2 rest [] n1 vs (scanFlags body1 st) hb2]
  simp only [rcUpdate, h2]
  rw [Option.map_map]
  rfl

/-- Witness instantiating C10 at a concrete pair of range blocks. -/
theorem c10_witness :
    interpTokens [("xs", ["1", "2"])] (fun st => some ("", st))
        (Token.rangeStart "xs" :: ([Token.text "A"] ++ Token.rangeEnd ::
          (Token.rangeStart "ys" :: ([Token.text "B"] ++ Token.rangeEnd :: [])))) false [] "" []
        initPState =
      (interpTokens [("xs", ["1", "2"])] (fun st => some ("", st)) [] false [] "ys" ["1", "2"]
          (scanFlags [Token.text "B"] (scanFlags [Token.text "A"] initPState))).map
        (fun r => (["1", "2"].foldl
            (fun o v => o ++ replay [("xs", ["1", "2"])] "xs" [Token.text "A"] v) "" ++
          (["1", "2"].foldl
            (fun o v => o ++ replay [("xs", ["1", "2"])] "ys" [Token.text "B"] v) "" ++ r.1),
          r.2)) :=
  c10_second_range_reuses_content [("xs", ["1", "2"])] (fun st => some ("", st)) "xs" "ys"
    ["1", "2"] [Token.text "A"] [Token.text "B"] [] initPState
    (by simp [lookupAssoc]) (by simp [lookupAssoc]) (by decide) (by decide)

/-! ## Claim C9 — totality of template interpretation -/

/-- Every binding of a vars map has a nonempty value sequence. -/
def varsOk (vars : List (String × List String)) : Prop := ∀ p ∈ vars, p.2 ≠ []

/-- varsOk at every node of a tree. -/
inductive AllVarsOk : Node → Prop where
  | mk (b : Block) (cs : List Node) : varsOk b.vars →
      (∀ c ∈ cs, AllVarsOk c) → AllVarsOk (Node.node b cs)

/-- addVar preserves nonemptiness of every binding. -/
theorem addVar_varsOk {vars : List (String × List String)} (k v : String)
    (h : varsOk vars) : varsOk (addVar vars k v) := by
  intro q hq
  rw [addVar] at hq
  split at hq
  · obtain ⟨p, hp, hpe⟩ := List.mem_map.mp hq
    by_cases hk : p.1 = k
    · simp only [hk, if_true] at hpe
      simp [← hpe]
    · simp only [hk, if_false] at hpe
      exact hpe ▸ h p hp
  · rcases List.mem_append.mp hq with h1 | h2
    · exact h q h1
    · simp at h2
      simp [h2]

/-- parseLine produces blocks with no bindings at all. -/
theorem parseLine_vars_nil {l : List Char} {id : Int} {b : Block}
    (h : parseLine l id = some b) : b.vars = [] := by
  rw [parseLine] at h
  split at h
  · simp at h
  · split at h
    · simp at h
    · split at h
      · simp at h
      · split at h
        · rename_i p0 p1 heq
          rcases hpi : parseIndex (splitByPred (fun c => c = '.') (trimTrailingDots p0)) with
            _ | idx
          · rw [hpi] at h; simp at h
          · rw [hpi] at h
            simp only [Option.some_inj] at h
            simp [← h]
        · simp at h

/-- The parser establishes the C9 precondition: every binding of every
parsed block is created together with its first value, hence nonempty. -/
theorem parseBlocks_varsOk (content : String) :
    ∀ b ∈ parseBlocks content, varsOk b.vars := by
  refine parseBlocksAux_forall (fun b => varsOk b.vars) ?_ ?_ _ [] 0 (by simp)
  · intro b k v h
    exact addVar_varsOk k v h
  · intro l id b h
    rw [parseLine_vars_nil h]
    intro p hp
    simp at hp

/-- The token loop never faults when every binding of the vars map is
nonempty and the child renderer never faults: the only unguarded access is
the non-loop Var branch reading element zero of an existing binding. -/
theorem interpTokens_total (vars : List (String × List String))
    (rch : PState → Option (String × PState)) (hv : varsOk vars)
    (hr : ∀ s, (rch s).isSome) :
    ∀ (tokens : List Token) (inR : Bool) (acc : List Token) (rv : String)
      (rc : List String) (st : PState),
      (interpTokens vars rch tokens inR acc rv rc st).isSome := by
  intro tokens
  induction tokens with
  | nil =>
    intro inR acc rv rc st
    rw [interpTokens]
    simp
  | cons t ts ih =>
    intro inR acc rv rc st
    cases t <;> rw [interpTokens] <;> cases inR
    case text.false s2 =>
      simp only [Bool.false_eq_true, if_false]
      rcases hX : interpTokens vars rch ts false acc rv rc st with _ | r
      · exact absurd hX (by have := ih false acc rv rc st; simp_all)
      · simp
    case text.true s2 =>
      simp only [if_true]
      exact ih true (acc ++ [Token.text s2]) rv rc st
    case rangeStart.false n =>
      simp only [Bool.false_eq_true, if_false]
      exact ih true [] n (rcUpdate vars n rc) st
    case rangeStart.true n =>
      simp only [if_true]
      exact ih true (acc ++ [Token.rangeStart n]) rv rc st
    case rangeEnd.false =>
      simp only [Bool.false_eq_true, if_false]
      exact ih false acc rv rc st
    case rangeEnd.true =>
      simp only [if_true]
      rcases hX : interpTokens vars rch ts false [] rv rc st with _ | r
      · exact absurd hX (by have := ih false [] rv rc st; simp_all)
      · simp
    case var.false n =>
      simp only [Bool.false_eq_true, if_false]
      rcases hl : lookupAssoc vars n with _ | vs
      · exact ih false acc rv rc st
      · cases vs with
        | nil => exact absurd rfl (hv (n, []) (lookupAssoc_mem hl))
        | cons v vrest =>
          rcases hX : interpTokens vars rch ts false acc rv rc st with _ | r
          · exact absurd hX (by have := ih false acc rv rc st; simp_all)
          · simp
    case var.true n =>
      simp only [if_true]
      exact ih true (acc ++ [Token.var n]) rv rc st
    case component.false =>
      simp only [Bool.false_eq_true, if_false]
      rcases hc : rch st with _ | r
      · exact absurd hc (by have := hr st; simp_all)
      · rcases hX : interpTokens vars rch ts false acc rv rc r.2 with _ | r2
        · exact absurd hX (by have := ih false acc rv rc r.2; simp_all)
        · simp [hX]
    case component.true =>
      simp only [if_true]
      exact ih true (acc ++ [Token.component]) rv rc st
    case style.false =>
      simp only [Bool.false_eq_true, if_false]
      exact ih false acc rv rc { st with hasStyles := true }
    case style.true =>
      simp only [if_true]
      exact ih true (acc ++ [Token.style]) rv rc { st with hasStyles := true }
    case script.false =>
      simp only [Bool.false_eq_true, if_false]
      exact ih false acc rv rc { st with hasScripts := true }
    case script.true =>
      simp only [if_true]
      exact ih true (acc ++ [Token.script]) rv rc { st with hasScripts := true }

theorem process_total_aux :
    ∀ k : Nat,
      (∀ (reg : List (String × Component)) (n : Node) (st : PState), sizeOf n ≤ k →
        AllVarsOk n → (processNode reg n st).isSome) ∧
      (∀ (reg : List (String × Component)) (cs : List Node) (st : PState), sizeOf cs ≤ k →
        (∀ c ∈ cs, AllVarsOk c) → (processChildren reg cs st).isSome) := by
  intro k
  induction k with
  | zero =>
    constructor
    · intro reg n st hsz
      exfalso
      cases n
      simp at hsz
    · intro reg cs st hsz
      exfalso
      cases cs <;> simp at hsz
  | succ k ih =>
    constructor
    · intro reg n st hsz hok
      cases n with
      | node b cs =>
        cases hok with
        | mk _ _ hv hcs =>
          have hszcs : sizeOf cs ≤ k := by
            simp at hsz
            omega
          rw [processNode]
          simp only [Node.block, Node.children]
          by_cases hid : b.id = -1
          · simp only [hid, if_true]
            exact ih.2 reg cs st hszcs hcs
          · simp only [hid, if_false]
            rcases hl : lookupAssoc reg b.path with _ | comp
            · simp
            · exact interpTokens_total b.vars _ hv
                (fun s => ih.2 reg cs s hszcs hcs) _ false [] "" []
                { st with assets := processComponentAssets comp st.assets }
    · intro reg cs st hsz hall
      cases cs with
      | nil =>
        rw [processChildren]
        simp
      | cons c rest =>
        rw [processChildren]
        have hszc : sizeOf c ≤ k := by
          simp at hsz
          omega
        have hszr : sizeOf rest ≤ k := by
          simp at hsz
          omega
        rcases hn : processNode reg c st with _ | r
        · exact absurd hn
            (by have := ih.1 reg c st hszc (hall c (by simp)); simp_all)
        · rcases hX : processChildren reg rest r.2 with _ | r2
          · exact absurd hX
              (by
                have := ih.2 reg rest r.2 hszr (fun d hd => hall d (by simp [hd]))
                simp_all)
          · simp [hX]

/--
C9: template interpretation is total under the precondition that every
bound variable maps to a nonempty value sequence at every node — a
precondition the blueprint parser establishes, because it only creates a
binding when appending its first value (first conjunct); processing any
tree whose nodes satisfy it never faults (second conjunct); and for a
binding with an empty sequence the non-loop Var branch reads element zero
of an empty sequence, the modelled out-of-bounds fault (third conjunct).
-/
theorem c9_interpretation_total :
    (∀ content : String, ∀ b ∈ parseBlocks content, varsOk b.vars) ∧
    (∀ (reg : List (String × Component)) (n : Node) (st : PState),
      AllVarsOk n → (processNode reg n st).isSome) ∧
    interpTokens [("x", [])] (fun s => some ("", s)) [Token.var "x"] false [] "" [] initPState
      = none := by
  refine ⟨parseBlocks_varsOk, ?_, ?_⟩
  · intro reg n st hok
    exact (process_total_aux (sizeOf n)).1 reg n st (le_refl _) hok
  · simp [interpTokens, lookupAssoc]

/-- Witness instantiating C9: a parsed block with one binding satisfies
the invariant, and processing a concrete satisfying tree succeeds. -/
theorem c9_witness :
    varsOk (Block.mk "p" [1] 0 [("k", ["v"])]).vars ∧
    (processNode [] (Node.node ⟨"p", [1], 0, [("k", ["v"])]⟩ []) initPState).isSome := by
  constructor
  · refine c9_interpretation_total.1 "1 p
.k=v" ⟨"p", [1], 0, [("k", ["v"])]⟩ ?_
    simp [parseBlocks, parseBlocksAux, splitLines, splitByPred, trimChars, isPrefixChars,
      parseLine, fieldsChars, trimTrailingDots, atoiChars, digitsVal, parseIndex,
      splitAtEq, updateLast, addVar, lookupAssoc]
  · refine c9_interpretation_total.2.1 [] _ initPState ?_
    refine AllVarsOk.mk _ _ ?_ ?_
    · intro p hp
      simp at hp
      simp [hp]
    · intro c hc
      simp at hc

/-! ## Claim C5 — unresolved component references -/

/-- addError never removes collected errors: it appends one entry or
leaves the list unchanged. -/
theorem addError_errs (st : PState) (line : Int) (d m : String) :
    ∃ t, (addError st line d m).errLines = st.errLines ++ t := by
  rw [addError]
  split
  · exact ⟨[], by simp⟩
  · exact ⟨[⟨line, d, m⟩], rfl⟩

/-- The token loop only ever appends to the collected error lines. -/
theorem interpTokens_errs_mono (vars : List (String × List String))
    (rch : PState → Option (String × PState))
    (hr : ∀ s o s2, rch s = some (o, s2) → ∃ t, s2.errLines = s.errLines ++ t) :
    ∀ (tokens : List Token) (inR : Bool) (acc : List Token) (rv : String)
      (rc : List String) (st : PState) (o : String) (st2 : PState),
      interpTokens vars rch tokens inR acc rv rc st = some (o, st2) →
      ∃ t, st2.errLines = st.errLines ++ t := by
  intro tokens
  induction tokens with
  | nil =>
    intro inR acc rv rc st o st2 h
    rw [interpTokens] at h
    simp only [Option.some_inj, Prod.mk.injEq] at h
    exact ⟨[], by simp [← h.2]⟩
  | cons t ts ih =>
    intro inR acc rv rc st o st2 h
    cases t <;> rw [interpTokens] at h <;> cases inR
    case text.false s2 =>
      simp only [Bool.false_eq_true, if_false] at h
      rcases hX : interpTokens vars rch ts false acc rv rc st with _ | r
      · rw [hX] at h; simp at h
      · rw [hX] at h
        simp only [Option.map_some', Option.some_inj, Prod.mk.injEq] at h
        exact h.2 ▸ ih false acc rv rc st r.1 r.2 (by rw [hX])
    case text.true s2 =>
      simp only [if_true] at h
      exact ih true (acc ++ [Token.text s2]) rv rc st o st2 h
    case rangeStart.false n =>
      simp only [Bool.false_eq_true, if_false] at h
      exact ih true [] n (rcUpdate vars n rc) st o st2 h
    case rangeStart.true n =>
      simp only [if_true] at h
      exact ih true (acc ++ [Token.rangeStart n]) rv rc st o st2 h
    case rangeEnd.false =>
      simp only [Bool.false_eq_true, if_false] at h
      exact ih false acc rv rc st o st2 h
    case rangeEnd.true =>
      simp only [if_true] at h
      rcases hX : interpTokens vars rch ts false [] rv rc st with _ | r
      · rw [hX] at h; simp at h
      · rw [hX] at h
        simp only [Option.map_some', Option.some_inj, Prod.mk.injEq] at h
        exact h.2 ▸ ih false [] rv rc st r.1 r.2 (by rw [hX])
    case var.false n =>
      simp only [Bool.false_eq_true, if_false] at h
      rcases hl : lookupAssoc vars n with _ | vs
      · rw [hl] at h
        exact ih false acc rv rc st o st2 h
      · rw [hl] at h
        cases vs with
        | nil => simp at h
        | cons v vrest =>
          rcases hX : interpTokens vars rch ts false acc rv rc st with _ | r
          · rw [hX] at h; simp at h
          · rw [hX] at h
            simp only [Option.map_some', Option.some_inj, Prod.mk.injEq] at h
            exact h.2 ▸ ih false acc rv rc st r.1 r.2 (by rw [hX])
    case var.true n =>
      simp only [if_true] at h
      exact ih true (acc ++ [Token.var n]) rv rc st o st2 h
    case component.false =>
      simp only [Bool.false_eq_true, if_false] at h
      rcases hc : rch st with _ | r
      · rw [hc] at h; simp at h
      · obtain ⟨ro, rst⟩ := r
        rw [hc] at h
        simp only at h
        rcases hX : interpTokens vars rch ts false acc rv rc rst with _ | r2
        · rw [hX] at h; simp at h
        · rw [hX] at h
          simp only [Option.map_some', Option.some_inj, Prod.mk.injEq] at h
          obtain ⟨t1, ht1⟩ := hr st ro rst (by rw [hc])
          obtain ⟨t2, ht2⟩ := ih false acc rv rc rst r2.1 r2.2 (by rw [hX])
          refine ⟨t1 ++ t2, ?_⟩
          rw [← h.2, ht2, ht1, List.append_assoc]
    case component.true =>
      simp only [if_true] at h
      exact ih true (acc ++ [Token.component]) rv rc st o st2 h
    case style.false =>
      simp only [Bool.false_eq_true, if_false] at h
      obtain ⟨t, ht⟩ := ih false acc rv rc { st with hasStyles := true } o st2 h
      exact ⟨t, ht⟩
    case style.true =>
      simp only [if_true] at h
      obtain ⟨t, ht⟩ := ih true (acc ++ [Token.style]) rv rc { st with hasStyles := true } o st2 h
      exact ⟨t, ht⟩
    case script.false =>
      simp only [Bool.false_eq_true, if_false] at h
      obtain ⟨t, ht⟩ := ih false acc rv rc { st with hasScripts := true } o st2 h
      exact ⟨t, ht⟩
    case script.true =>
      simp only [if_true] at h
      obtain ⟨t, ht⟩ :=
        ih true (acc ++ [Token.script]) rv rc { st with hasScripts := true } o st2 h
      exact ⟨t, ht⟩

theorem process_errs_mono_aux :
    ∀ k : Nat,
      (∀ (reg : List (String × Component)) (n : Node) (st : PState) (o : String)
        (st2 : PState), sizeOf n ≤ k → processNode reg n st = some (o, st2) →
        ∃ t, st2.errLines = st.errLines ++ t) ∧
      (∀ (reg : List (String × Component)) (cs : List Node) (st : PState) (o : String)
        (st2 : PState), sizeOf cs ≤ k → processChildren reg cs st = some (o, st2) →
        ∃ t, st2.errLines = st.errLines ++ t) := by
  intro k
  induction k with
  | zero =>
    constructor
    · intro reg n st o st2 hsz
      exfalso
      cases n
      simp at hsz
    · intro reg cs st o st2 hsz
      exfalso
      cases cs <;> simp at hsz
  | succ k ih =>
    constructor
    · intro reg n st o st2 hsz h
      cases n with
      | node b cs =>
        have hszcs : sizeOf cs ≤ k := by
          simp at hsz
          omega
        rw [processNode] at h
        simp only [Node.block, Node.children] at h
        by_cases hid : b.id = -1
        · simp only [hid, if_true] at h
          exact ih.2 reg cs st o st2 hszcs h
        · simp only [hid, if_false] at h
          rcases hl : lookupAssoc reg b.path with _ | comp
          · rw [hl] at h
            simp only [Option.some_inj, Prod.mk.injEq] at h
            exact h.2 ▸ addError_errs st 0 b.path _
          · rw [hl] at h
            have hrch : ∀ s o2 s2, processChildren reg cs s = some (o2, s2) →
                ∃ t, s2.errLines = s.errLines ++ t :=
              fun s o2 s2 hx => ih.2 reg cs s o2 s2 hszcs hx
            have := interpTokens_errs_mono b.vars _ hrch (tokenize comp.template)
              false [] "" [] { st with assets := processComponentAssets comp st.assets }
              o st2 h
            simpa using this
    · intro reg cs st o st2 hsz h
      cases cs with
      | nil =>
        rw [processChildren] at h
        simp only [Option.some_inj, Prod.mk.injEq] at h
        exact ⟨[], by simp [← h.2]⟩
      | cons c rest =>
        have hszc : sizeOf c ≤ k := by
          simp at hsz
          omega
        have hszr : sizeOf rest ≤ k := by
          simp at hsz
          omega
        rw [processChildren] at h
        rcases hn : processNode reg c st with _ | r
        · rw [hn] at h; simp at h
        · obtain ⟨ro, rst⟩ := r
          rw [hn] at h
          simp only at h
          rcases hX : processChildren reg rest rst with _ | r2
          · rw [hX] at h; simp at h
          · rw [hX] at h
            simp only [Option.map_some', Option.some_inj, Prod.mk.injEq] at h
            obtain ⟨t1, ht1⟩ := ih.1 reg c st ro rst hszc (by rw [hn])
            obtain ⟨t2, ht2⟩ := ih.2 reg rest rst r2.1 r2.2 hszr (by rw [hX])
            refine ⟨t1 ++ t2, ?_⟩
            rw [← h.2, ht2, ht1, List.append_assoc]

/-- Processing only accumulates errors, never discards them. -/
theorem processNode_errs_mono (reg : List (String × Component)) (n : Node)
    (st : PState) (o : String) (st2 : PState) (h : processNode reg n st = some (o, st2)) :
    ∃ t, st2.errLines = st.errLines ++ t :=
  (process_errs_mono_aux (sizeOf n)).1 reg n st o st2 (le_refl _) h

/-- The defining equation of processChildren on an empty list. -/
theorem processChildren_nil (reg : List (String × Component)) (st : PState) :
    processChildren reg [] st = some ("", st) := by
  rw [processChildren]

/-- The defining equation of processChildren on a nonempty list, stated
with pair projections. -/
theorem processChildren_cons (reg : List (String × Component)) (c : Node)
    (rest : List Node) (st : PState) :
    processChildren reg (c :: rest) st =
      match processNode reg c st with
      | none => none
      | some r => (processChildren reg rest r.2).map (fun q => (r.1 ++ q.1, q.2)) := by
  rw [processChildren]
  rcases h : processNode reg c st with _ | r
  · rfl
  · obtain ⟨ro, rst⟩ := r
    rfl

/--
C5: a node whose component path has no registry entry collects exactly one
non-fatal error — line zero, the unresolved path as directive, the
component-not-found message — emits the literal delimiter-wrapped path at
its own position, and leaves its sibling free to render: processing the
parent equals processing the sibling from the error-extended state, with
the placeholder text prepended (first conjunct); and whatever the sibling
does, the collected error entry is still present in the final state
(second conjunct).
-/
theorem c5_unresolved_component (reg : List (String × Component)) (p : String)
    (idx : List Int) (bid : Int) (bvars : List (String × List String))
    (badKids : List Node) (g : Node) (s0 : PState)
    (hid : ¬ bid = -1) (hreg : lookupAssoc reg p = none)
    (hfresh : ∀ e ∈ s0.errLines, ¬ (e.line = 0 ∧ e.directive = p)) :
    processNode reg (Node.node rootBlock [Node.node ⟨p, idx, bid, bvars⟩ badKids, g]) s0 =
      (processNode reg g (addError s0 0 p ("component not found: " ++ p))).map
        (fun r =>
          (String.mk ([lbrace, lbrace] ++ p.data ++ [rbrace, rbrace]) ++ r.1, r.2)) ∧
    (∀ (o : String) (st2 : PState),
      processNode reg g (addError s0 0 p ("component not found: " ++ p)) = some (o, st2) →
      (⟨0, p, "component not found: " ++ p⟩ : ProcErr) ∈ st2.errLines) := by
  have hbad : processNode reg (Node.node ⟨p, idx, bid, bvars⟩ badKids) s0 =
      some (String.mk ([lbrace, lbrace] ++ p.data ++ [rbrace, rbrace]),
        addError s0 0 p ("component not found: " ++ p)) := by
    rw [processNode]
    simp [Node.block, Node.children, hid, hreg]
  constructor
  · rw [processNode]
    simp only [rootBlock, Node.block, Node.children]
    simp only [if_true]
    rw [processChildren_cons, hbad]
    simp only
    rw [processChildren_cons]
    rcases hg : processNode reg g (addError s0 0 p ("component not found: " ++ p))
      with _ | r
    · simp
    · simp [processChildren_nil, str_append_nil, str_append_assoc]
  · intro o st2 hg
    obtain ⟨t, ht⟩ := processNode_errs_mono reg g _ o st2 hg
    rw [ht, addError]
    have hany : (s0.errLines.any fun e => e.line = 0 ∧ e.directive = p) = false := by
      rw [List.any_eq_false]
      intro e he
      simpa using hfresh e he
    simp only [hany, Bool.false_eq_true, if_false]
    simp

/-- Witness instantiating C5 with an unresolved path beside a resolvable
sibling. -/
theorem c5_witness :
    processNode [("g", ⟨"g", "G", "", []⟩)]
        (Node.node rootBlock
          [Node.node ⟨"missing", [1], 0, []⟩ [], Node.node ⟨"g", [2], 1, []⟩ []])
        initPState =
      (processNode [("g", ⟨"g", "G", "", []⟩)] (Node.node ⟨"g", [2], 1, []⟩ [])
          (addError initPState 0 "missing" ("component not found: " ++ "missing"))).map
        (fun r =>
          (String.mk ([lbrace, lbrace] ++ "missing".data ++ [rbrace, rbrace]) ++ r.1,
            r.2)) ∧
    (∀ (o : String) (st2 : PState),
      processNode [("g", ⟨"g", "G", "", []⟩)] (Node.node ⟨"g", [2], 1, []⟩ [])
          (addError initPState 0 "missing" ("component not found: " ++ "missing")) =
        some (o, st2) →
      (⟨0, "missing", "component not found: " ++ "missing"⟩ : ProcErr) ∈ st2.errLines) :=
  c5_unresolved_component [("g", ⟨"g", "G", "", []⟩)] "missing" [1] 0 [] []
    (Node.node ⟨"g", [2], 1, []⟩ []) initPState (by decide)
    (by simp [lookupAssoc]) (by simp [initPState])

/-! ## Claim C3 — duplicate block index handling -/

/--
C3: the claim says a duplicate block index is a fatal parse failure that
unwinds as a wrapped error and aborts the blueprint. In the code
blueprint.New always returns a nil error — on a duplicate index it returns
a nil tree with a nil error, so the error check of the builder does not
fire; processing continues, the Assembler runs on the nil tree and
produces an empty page with no asset files, which is then written out.
-/
theorem c3_duplicate_index_returns_no_error :
    blueprintNew "1 a\n1 b" = (none, none) ∧
    assembler [] none = some (Except.ok ("", [])) := by
  constructor
  · simp [blueprintNew, parseBlocks, parseBlocksAux, splitLines, splitByPred, trimChars,
      isPrefixChars, parseLine, fieldsChars, trimTrailingDots, atoiChars, digitsVal,
      parseIndex, buildTree, computeParents]
  · simp [assembler, processNodeOpt, initPState, assetsNew, getAssetTags, getFiles,
      trimString, trimChars]

/-! ## Claim C8 — registry caching -/

/--
C8: once a load of a component path has succeeded, a second load of the
same path within the same build returns the very same cached component,
leaves the cache unchanged, and performs no store calls at all — the whole
find/read/list sequence ran exactly once, on the first load. The cache
read get returns the same component; by its type it performs no store
calls (it produces no operation log).
-/
theorem c8_second_load_cached (store : Store) (st : List (String × Component))
    (p : String) (c : Component) (st2 : List (String × Component)) (log : List StoreOp)
    (h : registryLoad store st p = (Except.ok c, st2, log)) :
    registryLoad store st2 p = (Except.ok c, st2, []) ∧ registryGet st2 p = some c := by
  have hc : lookupAssoc st2 p = some c := by
    rcases h0 : lookupAssoc st p with _ | c0
    · rw [registryLoad, h0] at h
      simp only at h
      rcases h1 : store.findTemplateFile (fsPathOf p) with e | tpl <;> rw [h1] at h
      · simp at h
      · simp only at h
        rcases h2 : store.readComponent (fsPathOf p) tpl with e | tplC <;> rw [h2] at h
        · simp at h
        · simp only at h
          rcases h3 : store.listComponentFiles (fsPathOf p) ".css" with e | cssF <;>
            rw [h3] at h
          · simp at h
          · simp only at h
            rcases h4 : readFilesAcc store (fsPathOf p) "reading CSS" cssF with ⟨cssR, cssLog⟩
            rcases cssR with e | cssPairs
            · rw [h4] at h
              simp at h
            · rw [h4] at h
              simp only at h
              rcases h5 : store.listComponentFiles (fsPathOf p) ".js" with e | jsF <;>
                rw [h5] at h
              · simp at h
              · simp only at h
                rcases h6 : readFilesAcc store (fsPathOf p) "reading JS" jsF with ⟨jsR, jsLog⟩
                rcases jsR with e | jsPairs
                · rw [h6] at h
                  simp at h
                · rw [h6] at h
                  simp only [Prod.mk.injEq, Except.ok.injEq] at h
                  obtain ⟨hcc, hst2, _⟩ := h
                  rw [← hst2, ← hcc]
                  exact lookupAssoc_append_none _ h0
    · rw [registryLoad, h0] at h
      simp only [Prod.mk.injEq, Except.ok.injEq] at h
      obtain ⟨hcc, hst2, _⟩ := h
      rw [← hst2, ← hcc]
      exact h0
  constructor
  · rw [registryLoad, hc]
  · exact hc

/-- A concrete store for the C8 witness: one HTML template, no CSS, no
JS. -/
def storeC8 : Store :=
  ⟨fun _ => Except.ok "t.html", fun _ _ => Except.ok [], fun _ _ => Except.ok "T"⟩

/-- Witness instantiating C8: after the first load of path c performs the
template find/read and the two listings, the second load returns the
cached component with an empty operation log, and get sees it. -/
theorem c8_witness :
    registryLoad storeC8 [("c", ⟨"c", "T", "", []⟩)] "c" =
      (Except.ok ⟨"c", "T", "", []⟩, [("c", ⟨"c", "T", "", []⟩)], []) ∧
    registryGet [("c", ⟨"c", "T", "", []⟩)] "c" = some ⟨"c", "T", "", []⟩ :=
  c8_second_load_cached storeC8 [] "c" ⟨"c", "T", "", []⟩ [("c", ⟨"c", "T", "", []⟩)]
    [StoreOp.findTpl (fsPathOf "c"), StoreOp.readFile (fsPathOf "c") "t.html",
      StoreOp.listFiles (fsPathOf "c") ".css", StoreOp.listFiles (fsPathOf "c") ".js"]
    (by simp [registryLoad, lookupAssoc, storeC8, readFilesAcc])

end Webfactory
